import Mathlib

/-!
Code/data segmentation bitmap of `push0_test` (`main.go`)

Shallow embedding of the bit vector primitives (`set1`, `setN`, `set8`,
`set16`, `codeSegment`), of the scanner (`codeBitmap`,
`codeBitmapInternal`) and of the per-stream statistics loop of `main` in
`main.go`, with two instrumented copies of the scan loop: one that records the
cursor and one that carries the overwrite-safety assertions.

Modelling conventions.

* A Go `[]byte` is a `List Nat`; a stored byte is a natural number and the
  conversions `byte(..)` of the source are written `% 256`.
* Every slice index of the source is a checked access: an index at or beyond
  the slice length is the Go run-time panic, modelled as
  `Except.error Fault.outOfRange`.
* Positions are `uint64` in the source. A Go slice has fewer than `2^63`
  elements and the cursor never exceeds the stream length by more than 32, so
  no position arithmetic of the scanner wraps; positions are plain `Nat`.
* Loops are structural recursions on a fuel argument; running out of fuel is
  reported as `Fault.outOfFuel`, a result distinct from every result the Go
  code can produce, and the theorems show that it does not occur.
-/

namespace Push0

/-! ## Data model -/

/-- Faults of the embedding: the Go index panic, and exhaustion of loop fuel. -/
inductive Fault where
  | outOfRange
  | outOfFuel
  deriving DecidableEq

/-- `type bitvec []byte` (main.go:28). -/
abbrev bitvec := List Nat

/-- Checked read `s[i]` of a byte slice. -/
def readByte (s : bitvec) (i : Nat) : Except Fault Nat :=
  match s[i]? with
  | some b => .ok b
  | none => .error .outOfRange

/-- Checked write `s[i] = v` of a byte slice. -/
def writeByte (s : bitvec) (i v : Nat) : Except Fault bitvec :=
  if i < s.length then .ok (s.set i v) else .error .outOfRange

/-! ## Constants (main.go:12-32) -/

def set2BitsMask : Nat := 0b1100000000000000
def set3BitsMask : Nat := 0b1110000000000000
def set4BitsMask : Nat := 0b1111000000000000
def set5BitsMask : Nat := 0b1111100000000000
def set6BitsMask : Nat := 0b1111110000000000
def set7BitsMask : Nat := 0b1111111000000000
def PUSH1 : Nat := 0x60
def PUSH32 : Nat := 0x7F

/-- `var lookup = [8]byte{...}` (main.go:30); it is only indexed by `pos % 8`. -/
def lookup : List Nat := [0x80, 0x40, 0x20, 0x10, 0x8, 0x4, 0x2, 0x1]

/-! ## Bit vector primitives (main.go:34-64) -/

/-- `func (bits bitvec) set1(pos uint64)`. -/
def set1 (bits : bitvec) (pos : Nat) : Except Fault bitvec := do
  let old ← readByte bits (pos / 8)
  writeByte bits (pos / 8) (old ||| lookup.getD (pos % 8) 0)

/-- `func (bits bitvec) setN(flag uint16, pos uint64)`. -/
def setN (bits : bitvec) (flag : Nat) (pos : Nat) : Except Fault bitvec := do
  let a := flag >>> (pos % 8)
  let old ← readByte bits (pos / 8)
  let bits ← writeByte bits (pos / 8) (old ||| ((a >>> 8) % 256))
  let b := a % 256
  if b ≠ 0 then
    writeByte bits (pos / 8 + 1) b
  else
    pure bits

/-- `func (bits bitvec) set8(pos uint64)`; `^a` on a byte is `255 - a`. -/
def set8 (bits : bitvec) (pos : Nat) : Except Fault bitvec := do
  let a := (0xFF >>> (pos % 8)) % 256
  let old ← readByte bits (pos / 8)
  let bits ← writeByte bits (pos / 8) (old ||| a)
  writeByte bits (pos / 8 + 1) (255 - a)

/-- `func (bits bitvec) set16(pos uint64)`. -/
def set16 (bits : bitvec) (pos : Nat) : Except Fault bitvec := do
  let a := (0xFF >>> (pos % 8)) % 256
  let old ← readByte bits (pos / 8)
  let bits ← writeByte bits (pos / 8) (old ||| a)
  let bits ← writeByte bits (pos / 8 + 1) 0xFF
  writeByte bits (pos / 8 + 2) (255 - a)

/-- `func (bits *bitvec) codeSegment(pos uint64) bool`. -/
def codeSegment (bits : bitvec) (pos : Nat) : Except Fault Bool := do
  let b ← readByte bits (pos / 8)
  pure ((b &&& (0x80 >>> (pos % 8))) == 0)

/-! ## Scanner (main.go:66-121) -/

/-- The loop `for ; numbits >= 16; numbits -= 16 { bits.set16(pc); pc += 16 }`
(main.go:87-90); the result is the triple `(bits, numbits, pc)` at loop exit. -/
def set16Loop : Nat → bitvec → Nat → Nat → Except Fault (bitvec × Nat × Nat)
  | 0, bits, numbits, pc =>
    if numbits ≥ 16 then .error .outOfFuel else .ok (bits, numbits, pc)
  | fuel + 1, bits, numbits, pc =>
    if numbits ≥ 16 then do
      let bits ← set16 bits pc
      set16Loop fuel bits (numbits - 16) (pc + 16)
    else .ok (bits, numbits, pc)

/-- The loop `for ; numbits >= 8; numbits -= 8 { bits.set8(pc); pc += 8 }`
(main.go:91-94). -/
def set8Loop : Nat → bitvec → Nat → Nat → Except Fault (bitvec × Nat × Nat)
  | 0, bits, numbits, pc =>
    if numbits ≥ 8 then .error .outOfFuel else .ok (bits, numbits, pc)
  | fuel + 1, bits, numbits, pc =>
    if numbits ≥ 8 then do
      let bits ← set8 bits pc
      set8Loop fuel bits (numbits - 8) (pc + 8)
    else .ok (bits, numbits, pc)

/-- The `switch numbits` of main.go:96-118; no case matches `numbits = 0`
(or any value above 7), and then nothing is written. -/
def switchNumbits (bits : bitvec) (numbits pc : Nat) : Except Fault (bitvec × Nat) :=
  match numbits with
  | 1 => do let bits ← set1 bits pc; pure (bits, pc + 1)
  | 2 => do let bits ← setN bits set2BitsMask pc; pure (bits, pc + 2)
  | 3 => do let bits ← setN bits set3BitsMask pc; pure (bits, pc + 3)
  | 4 => do let bits ← setN bits set4BitsMask pc; pure (bits, pc + 4)
  | 5 => do let bits ← setN bits set5BitsMask pc; pure (bits, pc + 5)
  | 6 => do let bits ← setN bits set6BitsMask pc; pure (bits, pc + 6)
  | 7 => do let bits ← setN bits set7BitsMask pc; pure (bits, pc + 7)
  | _ => pure (bits, pc)

/-- Lines 85-118 of `codeBitmapInternal` once `numbits` is known: the guarded
batched loops followed by the switch. The loops get `numbits` as fuel, each
iteration lowering `numbits` by at least 8. -/
def markRun (bits : bitvec) (numbits pc : Nat) : Except Fault (bitvec × Nat) := do
  let (bits, numbits, pc) ←
    if numbits ≥ 8 then do
      let (bits, numbits, pc) ← set16Loop numbits bits numbits pc
      set8Loop numbits bits numbits pc
    else pure (bits, numbits, pc)
  switchNumbits bits numbits pc

/-- One iteration of the outer loop of `codeBitmapInternal` (main.go:80-118),
entered with `pc < len(code)`; returns the vector and the cursor after it. -/
def scanStep (code bits : bitvec) (pc : Nat) : Except Fault (bitvec × Nat) := do
  let op ← readByte code pc
  let pc := pc + 1
  if op < PUSH1 ∨ op > PUSH32 then
    pure (bits, pc)
  else
    let numbits := op - PUSH1 + 1
    markRun bits numbits pc

/-- The outer loop `for pc := uint64(0); pc < uint64(len(code)); { ... }`
(main.go:79-119), started at cursor `pc`. -/
def scanLoop (code : bitvec) : Nat → bitvec → Nat → Except Fault bitvec
  | 0, bits, pc =>
    if pc < code.length then .error .outOfFuel else .ok bits
  | fuel + 1, bits, pc =>
    if pc < code.length then do
      let (bits, pc) ← scanStep code bits pc
      scanLoop code fuel bits pc
    else .ok bits

/-- `func codeBitmapInternal(code, bits bitvec) bitvec`. Every iteration of
the outer loop advances the cursor, so `len(code)` iterations are enough. -/
def codeBitmapInternal (code bits : bitvec) : Except Fault bitvec :=
  scanLoop code code.length bits 0

/-- `func codeBitmap(code []byte) bitvec`; `make` returns a zeroed slice. -/
def codeBitmap (code : bitvec) : Except Fault bitvec :=
  codeBitmapInternal code (List.replicate (code.length / 8 + 1 + 4) 0)


/-! ## Specification-side definitions -/

deriving instance DecidableEq for Except

/-- Bit `i` of the vector in the most-significant-bit-first packing: bit
`7 - i % 8` of storage byte `i / 8`. Bytes beyond the end count as 0. -/
def bitSet (bits : bitvec) (i : Nat) : Bool :=
  (bits.getD (i / 8) 0).testBit (7 - i % 8)

/-- Relation between the vector before and after a batch of writes: the length
is kept and exactly the bits `lo <= i < hi` are added to the set bits. -/
def Marks (bits bits' : bitvec) (lo hi : Nat) : Prop :=
  bits'.length = bits.length ∧
    ∀ i, bitSet bits' i = (bitSet bits i || decide (lo ≤ i ∧ i < hi))

/-- All bits at indices `>= pc` are 0. -/
def ClearFrom (bits : bitvec) (pc : Nat) : Prop :=
  ∀ i, pc ≤ i → bitSet bits i = false

/-- Classification of a stream position. -/
inductive PosKind where
  | opcode
  | data
  deriving DecidableEq

/-- Classification read off the bit vector: a set bit is data. -/
def kindAt (bits : bitvec) (i : Nat) : PosKind :=
  if bitSet bits i then PosKind.data else PosKind.opcode

/-- The run lengths 2..7 paired with the mask constant the switch of
`codeBitmapInternal` passes to `setN` for that length. -/
def setBitsMasks : List (Nat × Nat) :=
  [(2, set2BitsMask), (3, set3BitsMask), (4, set4BitsMask),
   (5, set5BitsMask), (6, set6BitsMask), (7, set7BitsMask)]

/-- Run length the reference scan attaches to an opcode byte: `op - 0x5F` for
`0x60 <= op <= 0x7F`, and 0 for any other byte. -/
def refRunLength (op : Nat) : Nat :=
  if 0x60 ≤ op ∧ op ≤ 0x7F then op - 0x5F else 0

/-- Reference left-to-right scan, written from the words of the specification.
`refClassify k s` classifies the bytes of `s` when the next `k` positions are
still data of the run in progress: with `k = 0` the head is read as an opcode
and the `refRunLength` positions after it are data; then the scan resumes. -/
def refClassify : Nat → List Nat → List PosKind
  | _, [] => []
  | 0, op :: rest => PosKind.opcode :: refClassify (refRunLength op) rest
  | k + 1, _ :: rest => PosKind.data :: refClassify k rest

/-- The reference scan of a whole stream starts at position 0 reading an opcode. -/
def refScan (code : List Nat) : List PosKind := refClassify 0 code

/-! ## Instrumented scans -/

/-- The loop of `scanLoop` with the cursor recorded: next to the vector it
returns the cursor values at the successive evaluations of the loop condition
`pc < len(code)`; the last entry is the cursor at loop exit, so the number of
iterations run is the length of the list minus one. -/
def scanLoopTrace (code : bitvec) : Nat → bitvec → Nat → Except Fault (bitvec × List Nat)
  | 0, bits, pc =>
    if pc < code.length then .error .outOfFuel else .ok (bits, [pc])
  | fuel + 1, bits, pc =>
    if pc < code.length then do
      let (bits, next) ← scanStep code bits pc
      let (bits, cursors) ← scanLoopTrace code fuel bits next
      pure (bits, pc :: cursors)
    else .ok (bits, [pc])

/-- Faults of the scan with assertions: a fault of the scan itself, or one of
the two assertions failing. -/
inductive CheckFault where
  | fault (f : Fault)
  | bitSetAtOrAfterCursor
  | assignedByteNonzero
  deriving DecidableEq

/-- A result of the source code, seen as a result of the scan with assertions. -/
def liftFault {α : Type} : Except Fault α → Except CheckFault α
  | .ok a => .ok a
  | .error f => .error (.fault f)

/-- Assertion: all bits of the vector at indices `>= pc` are 0, i.e.
`codeSegment` is true at every such index. -/
def assertClearFrom (bits : bitvec) (pc : Nat) : Except CheckFault Unit :=
  if (List.range (8 * bits.length)).all
      (fun i => decide (i < pc) || decide (codeSegment bits i = .ok true)) then
    .ok ()
  else
    .error .bitSetAtOrAfterCursor

/-- Assertion: storage byte `j`, about to be written by direct assignment,
holds 0. An index beyond the vector is left to the index check of the write. -/
def assertByteZero (bits : bitvec) (j : Nat) : Except CheckFault Unit :=
  match bits[j]? with
  | some b => if b = 0 then .ok () else .error .assignedByteNonzero
  | none => .ok ()

/-- `set1` preceded by the assertion on the bits from `pos` on. -/
def set1Checked (bits : bitvec) (pos : Nat) : Except CheckFault bitvec := do
  assertClearFrom bits pos
  liftFault (set1 bits pos)

/-- `setN` preceded by the assertions: the bits from `pos` on are 0, and byte
`pos/8 + 1` is 0 whenever `setN` assigns it (its low byte `b` is not 0). The
only write of `setN` before that assignment goes to byte `pos/8`. -/
def setNChecked (bits : bitvec) (flag : Nat) (pos : Nat) : Except CheckFault bitvec := do
  assertClearFrom bits pos
  if (flag >>> (pos % 8)) % 256 ≠ 0 then
    assertByteZero bits (pos / 8 + 1)
  else
    pure ()
  liftFault (setN bits flag pos)

/-- `set8` preceded by the assertions on the bits from `pos` on and on the
assigned byte `pos/8 + 1`. -/
def set8Checked (bits : bitvec) (pos : Nat) : Except CheckFault bitvec := do
  assertClearFrom bits pos
  assertByteZero bits (pos / 8 + 1)
  liftFault (set8 bits pos)

/-- `set16` preceded by the assertions on the bits from `pos` on and on the
assigned bytes `pos/8 + 1` and `pos/8 + 2`. -/
def set16Checked (bits : bitvec) (pos : Nat) : Except CheckFault bitvec := do
  assertClearFrom bits pos
  assertByteZero bits (pos / 8 + 1)
  assertByteZero bits (pos / 8 + 2)
  liftFault (set16 bits pos)

/-- The loop of `set16Loop` over `set16Checked`. -/
def set16LoopChecked : Nat → bitvec → Nat → Nat → Except CheckFault (bitvec × Nat × Nat)
  | 0, bits, numbits, pc =>
    if numbits ≥ 16 then .error (.fault .outOfFuel) else .ok (bits, numbits, pc)
  | fuel + 1, bits, numbits, pc =>
    if numbits ≥ 16 then do
      let bits ← set16Checked bits pc
      set16LoopChecked fuel bits (numbits - 16) (pc + 16)
    else .ok (bits, numbits, pc)

/-- The loop of `set8Loop` over `set8Checked`. -/
def set8LoopChecked : Nat → bitvec → Nat → Nat → Except CheckFault (bitvec × Nat × Nat)
  | 0, bits, numbits, pc =>
    if numbits ≥ 8 then .error (.fault .outOfFuel) else .ok (bits, numbits, pc)
  | fuel + 1, bits, numbits, pc =>
    if numbits ≥ 8 then do
      let bits ← set8Checked bits pc
      set8LoopChecked fuel bits (numbits - 8) (pc + 8)
    else .ok (bits, numbits, pc)

/-- The switch of `switchNumbits` over the checked primitives. -/
def switchNumbitsChecked (bits : bitvec) (numbits pc : Nat) :
    Except CheckFault (bitvec × Nat) :=
  match numbits with
  | 1 => do let bits ← set1Checked bits pc; pure (bits, pc + 1)
  | 2 => do let bits ← setNChecked bits set2BitsMask pc; pure (bits, pc + 2)
  | 3 => do let bits ← setNChecked bits set3BitsMask pc; pure (bits, pc + 3)
  | 4 => do let bits ← setNChecked bits set4BitsMask pc; pure (bits, pc + 4)
  | 5 => do let bits ← setNChecked bits set5BitsMask pc; pure (bits, pc + 5)
  | 6 => do let bits ← setNChecked bits set6BitsMask pc; pure (bits, pc + 6)
  | 7 => do let bits ← setNChecked bits set7BitsMask pc; pure (bits, pc + 7)
  | _ => pure (bits, pc)

/-- The body of `markRun` over the checked loops and switch. -/
def markRunChecked (bits : bitvec) (numbits pc : Nat) : Except CheckFault (bitvec × Nat) := do
  let (bits, numbits, pc) ←
    if numbits ≥ 8 then do
      let (bits, numbits, pc) ← set16LoopChecked numbits bits numbits pc
      set8LoopChecked numbits bits numbits pc
    else pure (bits, numbits, pc)
  switchNumbitsChecked bits numbits pc

/-- The body of `scanStep` with the assertion on the bits from the cursor on
at the head of the iteration, over `markRunChecked`. -/
def scanStepChecked (code bits : bitvec) (pc : Nat) : Except CheckFault (bitvec × Nat) := do
  assertClearFrom bits pc
  let op ← liftFault (readByte code pc)
  let pc := pc + 1
  if op < PUSH1 ∨ op > PUSH32 then
    pure (bits, pc)
  else
    let numbits := op - PUSH1 + 1
    markRunChecked bits numbits pc

/-- The loop of `scanLoop` over `scanStepChecked`. -/
def scanLoopChecked (code : bitvec) : Nat → bitvec → Nat → Except CheckFault bitvec
  | 0, bits, pc =>
    if pc < code.length then .error (.fault .outOfFuel) else .ok bits
  | fuel + 1, bits, pc =>
    if pc < code.length then do
      let (bits, pc) ← scanStepChecked code bits pc
      scanLoopChecked code fuel bits pc
    else .ok bits

/-- The scan of `codeBitmap` on its freshly zeroed vector, with every
assertion in place. -/
def codeBitmapChecked (code : bitvec) : Except CheckFault bitvec :=
  scanLoopChecked code code.length (List.replicate (code.length / 8 + 1 + 4) 0) 0

/-- All storage bytes that lie wholly at or after bit index `pc` are 0. -/
def ZeroFrom (bits : bitvec) (pc : Nat) : Prop :=
  ∀ j, pc ≤ 8 * j → bits.getD j 0 = 0

/-! ## Per-stream statistics of `main` (main.go:294-327)

Console output and the write of the result record are left out. The counters
are Go `int`s; each is at most `400 * len(code)`, far below `2^63` for any
slice Go can allocate, so they are plain `Nat`. -/

/-- The five counters `push0Count`, `deployCost1`, `deployCost2`,
`runTimeCost1`, `runTimeCost2` written to the result record. -/
structure Counters where
  push0Count : Nat
  deployCost1 : Nat
  deployCost2 : Nat
  runTimeCost1 : Nat
  runTimeCost2 : Nat
  deriving DecidableEq

/-- One iteration of the loop `for pc := 0; pc < len(code); { ... pc++ }`
(main.go:304-325): `cs := bitmap.codeSegment(uint64(pc))`, `b[0] = code[pc]`,
the print of either branch on `cs`, then the test `code[pc] == PUSH1` with the
read `next_op := code[pc+1]`, which is not inside the branch on `cs`. -/
def statsStep (code bitmap : bitvec) (pc : Nat) (c : Counters) : Except Fault Counters := do
  let _cs ← codeSegment bitmap pc
  let _b0 ← readByte code pc
  let op ← readByte code pc
  if op = PUSH1 then do
    let next_op ← readByte code (pc + 1)
    if next_op = 0x00 then
      pure { push0Count := c.push0Count + 1
             deployCost1 := c.deployCost1 + 2 * 200
             deployCost2 := c.deployCost2 + 200
             runTimeCost1 := c.runTimeCost1 + 3
             runTimeCost2 := c.runTimeCost2 + 2 }
    else
      pure c
  else
    pure c

/-- The statistics loop of `main`, started at `pc` with the counters `c`. -/
def statsLoop (code bitmap : bitvec) : Nat → Nat → Counters → Except Fault Counters
  | 0, pc, c =>
    if pc < code.length then .error .outOfFuel else .ok c
  | fuel + 1, pc, c =>
    if pc < code.length then do
      let c ← statsStep code bitmap pc c
      statsLoop code bitmap fuel (pc + 1) c
    else .ok c

/-- The per-stream part of `main` (main.go:294-326): the counters start at 0,
`bitmap := codeBitmap(code)`, then the loop; `pc` advances by one per
iteration, so `len(code)` iterations are enough. -/
def mainStats (code : bitvec) : Except Fault Counters := do
  let bitmap ← codeBitmap code
  statsLoop code bitmap code.length 0
    { push0Count := 0, deployCost1 := 0, deployCost2 := 0,
      runTimeCost1 := 0, runTimeCost2 := 0 }

/-- Number of positions `pc < L` that the bitmap classifies as code and that
hold `0x60` followed by `0x00`. -/
def push0AtCodePositions (code bitmap : bitvec) : Nat :=
  ((List.range code.length).filter (fun pc =>
    decide (codeSegment bitmap pc = .ok true) && decide (code[pc]? = some 0x60)
      && decide (code[pc + 1]? = some 0x00))).length

/-- Number of positions `pc` with `lo <= pc < L` that hold `0x60` followed by
`0x00`, whatever their classification. -/
def push0Pairs (code : bitvec) (lo : Nat) : Nat :=
  ((List.range' lo (code.length - lo)).filter (fun pc =>
    decide (code[pc]? = some 0x60) && decide (code[pc + 1]? = some 0x00))).length

/-! ## Bytes and bits -/

theorem shiftRight_0x80 (r : Nat) (hr : r < 8) : 0x80 >>> r = 2 ^ (7 - r) := by
  interval_cases r <;> rfl

theorem and_0x80_beq_zero (b r : Nat) (hr : r < 8) :
    ((b &&& (0x80 >>> r)) == 0) = !b.testBit (7 - r) := by
  rw [shiftRight_0x80 r hr, Nat.and_two_pow]
  cases b.testBit (7 - r) <;> simp

theorem lookup_testBit :
    ∀ r < 8, ∀ k < 8, (lookup.getD r 0).testBit (7 - k) = decide (k = r) := by
  decide

theorem set8_hi_testBit :
    ∀ r < 8, ∀ k < 8, ((0xFF >>> r) % 256).testBit (7 - k) = decide (r ≤ k) := by
  decide

theorem set8_lo_testBit :
    ∀ r < 8, ∀ k < 8, (255 - (0xFF >>> r) % 256).testBit (7 - k) = decide (k < r) := by
  decide

theorem testBit_0xFF : ∀ k < 8, (0xFF : Nat).testBit (7 - k) = true := by
  decide

theorem setN_hi_testBit :
    ∀ p ∈ setBitsMasks, ∀ r < 8, ∀ k < 8,
      (((p.2 >>> r) >>> 8) % 256).testBit (7 - k) = decide (r ≤ k ∧ k < r + p.1) := by
  decide

theorem setN_lo_testBit :
    ∀ p ∈ setBitsMasks, ∀ r < 8, ∀ k < 8,
      ((p.2 >>> r) % 256).testBit (7 - k) = decide (k + 8 < r + p.1) := by
  decide

theorem setN_lo_eq_zero :
    ∀ p ∈ setBitsMasks, ∀ r < 8, ((p.2 >>> r) % 256 = 0 ↔ r + p.1 ≤ 8) := by
  decide

/-! ## Checked accesses -/

theorem readByte_ok {s : bitvec} {i : Nat} (h : i < s.length) :
    readByte s i = .ok (s.getD i 0) := by
  simp [readByte, List.getD, List.getElem?_eq_getElem h]

theorem writeByte_ok {s : bitvec} {i : Nat} (v : Nat) (h : i < s.length) :
    writeByte s i v = .ok (s.set i v) := by
  simp [writeByte, h]

theorem bitSet_set (bits : bitvec) (j v i : Nat) (hj : j < bits.length) :
    bitSet (bits.set j v) i = if i / 8 = j then v.testBit (7 - i % 8) else bitSet bits i := by
  unfold bitSet
  by_cases h : i / 8 = j
  · subst h
    simp [List.getD, List.getElem?_set, hj]
  · simp [List.getD, List.getElem?_set, h, Ne.symm h]

theorem codeSegment_ok {bits : bitvec} {pos : Nat} (h : pos / 8 < bits.length) :
    codeSegment bits pos = .ok (!bitSet bits pos) := by
  simp only [codeSegment, readByte_ok h, bind, Except.bind, pure, Except.pure]
  rw [and_0x80_beq_zero _ _ (Nat.mod_lt _ (by decide))]
  rfl

/-! ## The write primitives, bit by bit -/

theorem set1_eq {bits : bitvec} {pos : Nat} (h : pos / 8 < bits.length) :
    set1 bits pos
      = .ok (bits.set (pos / 8) (bits.getD (pos / 8) 0 ||| lookup.getD (pos % 8) 0)) := by
  simp [set1, readByte_ok h, writeByte_ok _ h, bind, Except.bind]

theorem set1_bitSet {bits bits' : bitvec} {pos : Nat} (h : pos / 8 < bits.length)
    (hs : set1 bits pos = .ok bits') (i : Nat) :
    bitSet bits' i = (bitSet bits i || decide (i = pos)) := by
  rw [set1_eq h] at hs
  cases hs
  rw [bitSet_set _ _ _ _ h]
  have hr : pos % 8 < 8 := Nat.mod_lt _ (by decide)
  have hk : i % 8 < 8 := Nat.mod_lt _ (by decide)
  by_cases hj : i / 8 = pos / 8
  · rw [if_pos hj, Nat.testBit_lor, lookup_testBit _ hr _ hk]
    have : (i % 8 = pos % 8) ↔ i = pos := by omega
    simp [bitSet, hj, this]
  · rw [if_neg hj]
    have : i ≠ pos := fun e => hj (by rw [e])
    simp [this]

theorem setN_eq {bits : bitvec} {pos : Nat} (flag : Nat) (h : pos / 8 + 1 < bits.length) :
    setN bits flag pos
      = .ok (if (flag >>> (pos % 8)) % 256 ≠ 0 then
          (bits.set (pos / 8)
            (bits.getD (pos / 8) 0 ||| ((flag >>> (pos % 8)) >>> 8) % 256)).set
              (pos / 8 + 1) ((flag >>> (pos % 8)) % 256)
        else
          bits.set (pos / 8)
            (bits.getD (pos / 8) 0 ||| ((flag >>> (pos % 8)) >>> 8) % 256)) := by
  have h0 : pos / 8 < bits.length := by omega
  simp only [setN, readByte_ok h0, writeByte_ok _ h0, bind, Except.bind]
  split
  · rw [writeByte_ok _ (by simpa using h)]
  · rfl

theorem setN_bitSet {bits bits' : bitvec} {pos n flag : Nat} (hp : (n, flag) ∈ setBitsMasks)
    (h : pos / 8 + 1 < bits.length)
    (hclear : ∀ i, i / 8 = pos / 8 + 1 → bitSet bits i = false)
    (hs : setN bits flag pos = .ok bits') (i : Nat) :
    bitSet bits' i = (bitSet bits i || decide (pos ≤ i ∧ i < pos + n)) := by
  rw [setN_eq flag h] at hs
  cases hs
  have h0 : pos / 8 < bits.length := by omega
  have hr : pos % 8 < 8 := Nat.mod_lt _ (by decide)
  have hk : i % 8 < 8 := Nat.mod_lt _ (by decide)
  have hn : 2 ≤ n ∧ n ≤ 7 := by
    simp only [setBitsMasks, List.mem_cons, Prod.mk.injEq, List.mem_singleton,
      List.not_mem_nil, or_false] at hp
    omega
  have hhi := setN_hi_testBit _ hp _ hr _ hk
  have hlo := setN_lo_testBit _ hp _ hr _ hk
  have hz := setN_lo_eq_zero _ hp _ hr
  simp only at hhi hlo hz
  by_cases hj : i / 8 = pos / 8
  · have hb : bitSet (bits.set (pos / 8)
        (bits.getD (pos / 8) 0 ||| ((flag >>> (pos % 8)) >>> 8) % 256)) i
          = (bitSet bits i || decide (pos ≤ i ∧ i < pos + n)) := by
      rw [bitSet_set _ _ _ _ h0, if_pos hj, Nat.testBit_lor, hhi]
      have : (pos % 8 ≤ i % 8 ∧ i % 8 < pos % 8 + n) ↔ (pos ≤ i ∧ i < pos + n) := by omega
      simp [bitSet, hj, this]
    split
    · rw [bitSet_set _ _ _ _ (by simpa using h), if_neg (by omega), hb]
    · exact hb
  · by_cases hj1 : i / 8 = pos / 8 + 1
    · split
      · rw [bitSet_set _ _ _ _ (by simpa using h), if_pos hj1, hlo, hclear i hj1]
        have : (i % 8 + 8 < pos % 8 + n) ↔ (pos ≤ i ∧ i < pos + n) := by omega
        simp [this]
      · rename_i hne
        have hz' : pos % 8 + n ≤ 8 := hz.mp (by simpa using hne)
        rw [bitSet_set _ _ _ _ h0, if_neg hj, hclear i hj1]
        have : ¬ (pos ≤ i ∧ i < pos + n) := by omega
        simp [this]
    · have hout : ¬ (pos ≤ i ∧ i < pos + n) := by omega
      split
      · rw [bitSet_set _ _ _ _ (by simpa using h), if_neg hj1, bitSet_set _ _ _ _ h0, if_neg hj]
        simp [hout]
      · rw [bitSet_set _ _ _ _ h0, if_neg hj]
        simp [hout]

theorem set8_eq {bits : bitvec} {pos : Nat} (h : pos / 8 + 1 < bits.length) :
    set8 bits pos
      = .ok ((bits.set (pos / 8) (bits.getD (pos / 8) 0 ||| (0xFF >>> (pos % 8)) % 256)).set
          (pos / 8 + 1) (255 - (0xFF >>> (pos % 8)) % 256)) := by
  have h0 : pos / 8 < bits.length := by omega
  simp only [set8, readByte_ok h0, writeByte_ok _ h0, bind, Except.bind]
  rw [writeByte_ok _ (by simpa using h)]

theorem set8_bitSet {bits bits' : bitvec} {pos : Nat} (h : pos / 8 + 1 < bits.length)
    (hclear : ∀ i, i / 8 = pos / 8 + 1 → bitSet bits i = false)
    (hs : set8 bits pos = .ok bits') (i : Nat) :
    bitSet bits' i = (bitSet bits i || decide (pos ≤ i ∧ i < pos + 8)) := by
  rw [set8_eq h] at hs
  cases hs
  have h0 : pos / 8 < bits.length := by omega
  have hr : pos % 8 < 8 := Nat.mod_lt _ (by decide)
  have hk : i % 8 < 8 := Nat.mod_lt _ (by decide)
  rw [bitSet_set _ _ _ _ (by simpa using h)]
  by_cases hj1 : i / 8 = pos / 8 + 1
  · rw [if_pos hj1, set8_lo_testBit _ hr _ hk, hclear i hj1]
    have : (i % 8 < pos % 8) ↔ (pos ≤ i ∧ i < pos + 8) := by omega
    simp [this]
  · rw [if_neg hj1, bitSet_set _ _ _ _ h0]
    by_cases hj : i / 8 = pos / 8
    · rw [if_pos hj, Nat.testBit_lor, set8_hi_testBit _ hr _ hk]
      have : (pos % 8 ≤ i % 8) ↔ (pos ≤ i ∧ i < pos + 8) := by omega
      simp [bitSet, hj, this]
    · rw [if_neg hj]
      have : ¬ (pos ≤ i ∧ i < pos + 8) := by omega
      simp [this]

theorem set16_eq {bits : bitvec} {pos : Nat} (h : pos / 8 + 2 < bits.length) :
    set16 bits pos
      = .ok (((bits.set (pos / 8) (bits.getD (pos / 8) 0 ||| (0xFF >>> (pos % 8)) % 256)).set
          (pos / 8 + 1) 0xFF).set (pos / 8 + 2) (255 - (0xFF >>> (pos % 8)) % 256)) := by
  have h0 : pos / 8 < bits.length := by omega
  have h1 : pos / 8 + 1 < bits.length := by omega
  simp only [set16, readByte_ok h0, writeByte_ok _ h0, bind, Except.bind]
  rw [writeByte_ok _ (by simpa using h1)]
  simp only []
  rw [writeByte_ok _ (by simpa using h)]

theorem set16_bitSet {bits bits' : bitvec} {pos : Nat} (h : pos / 8 + 2 < bits.length)
    (hclear : ∀ i, i / 8 = pos / 8 + 1 ∨ i / 8 = pos / 8 + 2 → bitSet bits i = false)
    (hs : set16 bits pos = .ok bits') (i : Nat) :
    bitSet bits' i = (bitSet bits i || decide (pos ≤ i ∧ i < pos + 16)) := by
  rw [set16_eq h] at hs
  cases hs
  have h0 : pos / 8 < bits.length := by omega
  have h1 : pos / 8 + 1 < bits.length := by omega
  have hr : pos % 8 < 8 := Nat.mod_lt _ (by decide)
  have hk : i % 8 < 8 := Nat.mod_lt _ (by decide)
  rw [bitSet_set _ _ _ _ (by simpa using h)]
  by_cases hj2 : i / 8 = pos / 8 + 2
  · rw [if_pos hj2, set8_lo_testBit _ hr _ hk, hclear i (Or.inr hj2)]
    have : (i % 8 < pos % 8) ↔ (pos ≤ i ∧ i < pos + 16) := by omega
    simp [this]
  · rw [if_neg hj2, bitSet_set _ _ _ _ (by simpa using h1)]
    by_cases hj1 : i / 8 = pos / 8 + 1
    · rw [if_pos hj1, testBit_0xFF _ hk, hclear i (Or.inl hj1)]
      have : pos ≤ i ∧ i < pos + 16 := by omega
      simp [this]
    · rw [if_neg hj1, bitSet_set _ _ _ _ h0]
      by_cases hj : i / 8 = pos / 8
      · rw [if_pos hj, Nat.testBit_lor, set8_hi_testBit _ hr _ hk]
        have : (pos % 8 ≤ i % 8) ↔ (pos ≤ i ∧ i < pos + 16) := by omega
        simp [bitSet, hj, this]
      · rw [if_neg hj]
        have : ¬ (pos ≤ i ∧ i < pos + 16) := by omega
        simp [this]

/-! ## Composition of marked ranges -/

theorem Marks.refl (bits : bitvec) (lo : Nat) : Marks bits bits lo lo := by
  refine ⟨rfl, fun i => ?_⟩
  have : ¬ (lo ≤ i ∧ i < lo) := by omega
  simp [this]

theorem Marks.trans {a b c : bitvec} {lo mid hi : Nat} (h1 : Marks a b lo mid)
    (h2 : Marks b c mid hi) (hlm : lo ≤ mid) (hmh : mid ≤ hi) : Marks a c lo hi := by
  refine ⟨h2.1.trans h1.1, fun i => ?_⟩
  rw [h2.2, h1.2, Bool.or_assoc]
  congr 1
  rw [Bool.eq_iff_iff]
  simp only [Bool.or_eq_true, decide_eq_true_eq]
  omega

theorem Marks.clearFrom {a b : bitvec} {lo hi : Nat} (h : Marks a b lo hi)
    (hc : ClearFrom a lo) (hle : lo ≤ hi) : ClearFrom b hi := by
  intro i hi'
  rw [h.2, hc i (by omega)]
  have : ¬ (lo ≤ i ∧ i < hi) := by omega
  simp [this]

theorem Marks.below {a b : bitvec} {lo hi : Nat} (h : Marks a b lo hi) {i : Nat}
    (hi' : i < lo) : bitSet b i = bitSet a i := by
  rw [h.2]
  have : ¬ (lo ≤ i ∧ i < hi) := by omega
  simp [this]

theorem Marks.inside {a b : bitvec} {lo hi : Nat} (h : Marks a b lo hi) {i : Nat}
    (h1 : lo ≤ i) (h2 : i < hi) : bitSet b i = true := by
  rw [h.2]
  simp [h1, h2]

theorem set1_marks (bits : bitvec) (pos : Nat) (h : pos / 8 < bits.length) :
    ∃ bits', set1 bits pos = .ok bits' ∧ Marks bits bits' pos (pos + 1) := by
  refine ⟨_, set1_eq h, by simp, fun i => ?_⟩
  rw [set1_bitSet h (set1_eq h) i]
  have : (i = pos) ↔ (pos ≤ i ∧ i < pos + 1) := by omega
  simp [this]

theorem setN_marks (bits : bitvec) (pos n flag : Nat) (hp : (n, flag) ∈ setBitsMasks)
    (h : pos / 8 + 1 < bits.length) (hc : ClearFrom bits pos) :
    ∃ bits', setN bits flag pos = .ok bits' ∧ Marks bits bits' pos (pos + n) := by
  refine ⟨_, setN_eq flag h, ?_, fun i => ?_⟩
  · split <;> simp
  · exact setN_bitSet hp h (fun i hi => hc i (by omega)) (setN_eq flag h) i

theorem set8_marks (bits : bitvec) (pos : Nat) (h : pos / 8 + 1 < bits.length)
    (hc : ClearFrom bits pos) :
    ∃ bits', set8 bits pos = .ok bits' ∧ Marks bits bits' pos (pos + 8) := by
  refine ⟨_, set8_eq h, by simp, fun i => ?_⟩
  exact set8_bitSet h (fun i hi => hc i (by omega)) (set8_eq h) i

theorem set16_marks (bits : bitvec) (pos : Nat) (h : pos / 8 + 2 < bits.length)
    (hc : ClearFrom bits pos) :
    ∃ bits', set16 bits pos = .ok bits' ∧ Marks bits bits' pos (pos + 16) := by
  refine ⟨_, set16_eq h, by simp, fun i => ?_⟩
  exact set16_bitSet h (fun i hi => hc i (by omega)) (set16_eq h) i

/-! ## The batched loops and the switch -/

theorem set16Loop_spec (fuel : Nat) :
    ∀ (bits : bitvec) (n pc : Nat), n ≤ fuel → (pc + n) / 8 < bits.length →
      ClearFrom bits pc →
      ∃ bits', set16Loop fuel bits n pc = .ok (bits', n % 16, pc + 16 * (n / 16)) ∧
        Marks bits bits' pc (pc + 16 * (n / 16)) := by
  induction fuel with
  | zero =>
    intro bits n pc hn _ _
    have hn0 : n = 0 := by omega
    subst hn0
    exact ⟨bits, by simp [set16Loop], Marks.refl _ _⟩
  | succ fuel ih =>
    intro bits n pc hn hlen hc
    by_cases h16 : n ≥ 16
    · obtain ⟨b1, hb1, hm1⟩ := set16_marks bits pc (by omega) hc
      have hc1 : ClearFrom b1 (pc + 16) := hm1.clearFrom hc (by omega)
      obtain ⟨b2, hb2, hm2⟩ := ih b1 (n - 16) (pc + 16) (by omega)
        (by rw [hm1.1]; omega) hc1
      have e1 : (n - 16) % 16 = n % 16 := by omega
      have e2 : pc + 16 + 16 * ((n - 16) / 16) = pc + 16 * (n / 16) := by omega
      rw [e1, e2] at hb2
      rw [e2] at hm2
      refine ⟨b2, ?_, hm1.trans hm2 (by omega) (by omega)⟩
      simp only [set16Loop, h16, if_true, hb1, bind, Except.bind, hb2]
    · have e1 : n % 16 = n := by omega
      have e2 : n / 16 = 0 := by omega
      refine ⟨bits, ?_, ?_⟩
      · simp [set16Loop, h16, e1, e2]
      · rw [e2]
        exact Marks.refl _ _

theorem set8Loop_spec (fuel : Nat) :
    ∀ (bits : bitvec) (n pc : Nat), n ≤ fuel → (pc + n) / 8 < bits.length →
      ClearFrom bits pc →
      ∃ bits', set8Loop fuel bits n pc = .ok (bits', n % 8, pc + 8 * (n / 8)) ∧
        Marks bits bits' pc (pc + 8 * (n / 8)) := by
  induction fuel with
  | zero =>
    intro bits n pc hn _ _
    have hn0 : n = 0 := by omega
    subst hn0
    exact ⟨bits, by simp [set8Loop], Marks.refl _ _⟩
  | succ fuel ih =>
    intro bits n pc hn hlen hc
    by_cases h8 : n ≥ 8
    · obtain ⟨b1, hb1, hm1⟩ := set8_marks bits pc (by omega) hc
      have hc1 : ClearFrom b1 (pc + 8) := hm1.clearFrom hc (by omega)
      obtain ⟨b2, hb2, hm2⟩ := ih b1 (n - 8) (pc + 8) (by omega)
        (by rw [hm1.1]; omega) hc1
      have e1 : (n - 8) % 8 = n % 8 := by omega
      have e2 : pc + 8 + 8 * ((n - 8) / 8) = pc + 8 * (n / 8) := by omega
      rw [e1, e2] at hb2
      rw [e2] at hm2
      refine ⟨b2, ?_, hm1.trans hm2 (by omega) (by omega)⟩
      simp only [set8Loop, h8, if_true, hb1, bind, Except.bind, hb2]
    · have e1 : n % 8 = n := by omega
      have e2 : n / 8 = 0 := by omega
      refine ⟨bits, ?_, ?_⟩
      · simp [set8Loop, h8, e1, e2]
      · rw [e2]
        exact Marks.refl _ _

theorem switch_setN_case (bits : bitvec) (pc n flag : Nat) (hp : (n, flag) ∈ setBitsMasks)
    (hl : pc / 8 + 1 < bits.length) (hc : ClearFrom bits pc) :
    ∃ bits', (do let b ← setN bits flag pc; pure (b, pc + n) : Except Fault (bitvec × Nat))
        = .ok (bits', pc + n) ∧ Marks bits bits' pc (pc + n) := by
  obtain ⟨b, hb, hm⟩ := setN_marks bits pc n flag hp hl hc
  exact ⟨b, by simp [hb, bind, Except.bind, pure, Except.pure], hm⟩

theorem switchNumbits_spec (bits : bitvec) (n pc : Nat) (hn : n < 8)
    (hlen : n = 0 ∨ pc / 8 + 1 < bits.length) (hc : ClearFrom bits pc) :
    ∃ bits', switchNumbits bits n pc = .ok (bits', pc + n) ∧
      Marks bits bits' pc (pc + n) := by
  interval_cases n
  · exact ⟨bits, rfl, Marks.refl _ _⟩
  · obtain ⟨b, hb, hm⟩ := set1_marks bits pc (by omega)
    exact ⟨b, by simp [switchNumbits, hb, bind, Except.bind, pure, Except.pure], hm⟩
  · exact switch_setN_case bits pc 2 set2BitsMask (by decide) (by omega) hc
  · exact switch_setN_case bits pc 3 set3BitsMask (by decide) (by omega) hc
  · exact switch_setN_case bits pc 4 set4BitsMask (by decide) (by omega) hc
  · exact switch_setN_case bits pc 5 set5BitsMask (by decide) (by omega) hc
  · exact switch_setN_case bits pc 6 set6BitsMask (by decide) (by omega) hc
  · exact switch_setN_case bits pc 7 set7BitsMask (by decide) (by omega) hc

theorem markRun_spec (bits : bitvec) (n pc : Nat) (hn : n ≤ 32)
    (hlen : pc / 8 + 4 < bits.length) (hc : ClearFrom bits pc) :
    ∃ bits', markRun bits n pc = .ok (bits', pc + n) ∧ Marks bits bits' pc (pc + n) := by
  by_cases h8 : n ≥ 8
  · obtain ⟨b1, hb1, hm1⟩ := set16Loop_spec n bits n pc (Nat.le_refl _) (by omega) hc
    have hc1 := hm1.clearFrom hc (by omega)
    obtain ⟨b2, hb2, hm2⟩ := set8Loop_spec (n % 16) b1 (n % 16) (pc + 16 * (n / 16))
      (Nat.le_refl _) (by rw [hm1.1]; omega) hc1
    have hc2 := hm2.clearFrom hc1 (by omega)
    obtain ⟨b3, hb3, hm3⟩ := switchNumbits_spec b2 (n % 16 % 8)
      (pc + 16 * (n / 16) + 8 * (n % 16 / 8)) (by omega)
      (by rw [hm2.1, hm1.1]; omega) hc2
    have e : pc + 16 * (n / 16) + 8 * (n % 16 / 8) + n % 16 % 8 = pc + n := by omega
    rw [e] at hb3 hm3
    refine ⟨b3, ?_, (hm1.trans hm2 (by omega) (by omega)).trans hm3 (by omega) (by omega)⟩
    simp only [markRun, h8, if_true, hb1, bind, Except.bind, hb2, hb3]
  · obtain ⟨b3, hb3, hm3⟩ := switchNumbits_spec bits n pc
      (by omega) (by omega) hc
    refine ⟨b3, ?_, hm3⟩
    simp only [markRun, h8, if_false, bind, Except.bind, pure, Except.pure, hb3]

/-! ## The reference scan -/

theorem refClassify_length (l : List Nat) : ∀ k, (refClassify k l).length = l.length := by
  induction l with
  | nil => intro k; simp [refClassify]
  | cons a l ih =>
    intro k
    cases k <;> simp [refClassify, ih]

theorem refClassify_data (l : List Nat) :
    ∀ k j, j < k → j < l.length → (refClassify k l)[j]? = some PosKind.data := by
  induction l with
  | nil => intro k j _ hj; simp at hj
  | cons a l ih =>
    intro k j hk hj
    cases k with
    | zero => omega
    | succ k =>
      cases j with
      | zero => simp [refClassify]
      | succ j =>
        simp only [refClassify, List.getElem?_cons_succ]
        exact ih k j (by omega) (by simpa using hj)

theorem refClassify_resume (l : List Nat) :
    ∀ k j, k ≤ j → (refClassify k l)[j]? = (refClassify 0 (l.drop k))[j - k]? := by
  induction l with
  | nil => intro k j _; simp [refClassify]
  | cons a l ih =>
    intro k j hk
    cases k with
    | zero => simp
    | succ k =>
      cases j with
      | zero => omega
      | succ j =>
        simp only [refClassify, List.getElem?_cons_succ, List.drop_succ_cons]
        rw [ih k j (by omega)]
        congr 1
        omega

theorem refClassify_drop_opcode {code : List Nat} {pc : Nat} (h : pc < code.length) :
    refClassify 0 (code.drop pc)
      = PosKind.opcode ::
          refClassify (refRunLength (code.getD pc 0)) (code.drop (pc + 1)) := by
  rw [List.drop_eq_getElem_cons h]
  simp [refClassify, List.getD, List.getElem?_eq_getElem h]

/-! ## The scanner -/

theorem scanStep_spec {code bits : bitvec} {pc : Nat} (hpc : pc < code.length)
    (hlen : bits.length = code.length / 8 + 1 + 4) (hc : ClearFrom bits (pc + 1)) :
    ∃ bits', scanStep code bits pc
        = .ok (bits', pc + 1 + refRunLength (code.getD pc 0)) ∧
      Marks bits bits' (pc + 1) (pc + 1 + refRunLength (code.getD pc 0)) := by
  by_cases hop : code.getD pc 0 < PUSH1 ∨ code.getD pc 0 > PUSH32
  · have hr : refRunLength (code.getD pc 0) = 0 := by
      simp only [PUSH1, PUSH32] at hop
      simp only [refRunLength]
      rw [if_neg (by omega)]
    refine ⟨bits, ?_, ?_⟩
    · simp only [scanStep, readByte_ok hpc, bind, Except.bind, pure, Except.pure, hr]
      rw [if_pos hop]
    · rw [hr]
      exact Marks.refl _ _
  · have hop' : 0x60 ≤ code.getD pc 0 ∧ code.getD pc 0 ≤ 0x7F := by
      simp only [PUSH1, PUSH32] at hop
      omega
    have hr : refRunLength (code.getD pc 0) = code.getD pc 0 - PUSH1 + 1 := by
      simp only [refRunLength, PUSH1]
      rw [if_pos hop']
      omega
    obtain ⟨b1, hb1, hm1⟩ := markRun_spec bits (code.getD pc 0 - PUSH1 + 1)
      (pc + 1) (by simp only [PUSH1]; omega) (by rw [hlen]; omega) hc
    refine ⟨b1, ?_, ?_⟩
    · simp only [scanStep, readByte_ok hpc, bind, Except.bind, hop, if_false, hb1, hr]
    · rw [hr]
      exact hm1

theorem scanLoop_spec (code : bitvec) (fuel : Nat) :
    ∀ (bits : bitvec) (pc : Nat), code.length ≤ pc + fuel →
      bits.length = code.length / 8 + 1 + 4 → ClearFrom bits pc →
      ∃ bits', scanLoop code fuel bits pc = .ok bits' ∧
        bits'.length = bits.length ∧
        (∀ i, i < pc → bitSet bits' i = bitSet bits i) ∧
        (∀ i, pc ≤ i → i < code.length →
          (refClassify 0 (code.drop pc))[i - pc]? = some (kindAt bits' i)) := by
  induction fuel with
  | zero =>
    intro bits pc hf _ _
    refine ⟨bits, ?_, rfl, fun _ _ => rfl, fun i h1 h2 => ?_⟩
    · simp only [scanLoop]
      rw [if_neg (by omega)]
    · omega
  | succ fuel ih =>
    intro bits pc hf hlen hc
    by_cases hpc : pc < code.length
    · obtain ⟨b1, hb1, hm1⟩ := scanStep_spec hpc hlen (fun i hi => hc i (by omega))
      have hc1 : ClearFrom b1 (pc + 1 + refRunLength (code.getD pc 0)) :=
        hm1.clearFrom (fun i hi => hc i (by omega)) (by omega)
      obtain ⟨b2, hb2, hl2, hlow, hhigh⟩ :=
        ih b1 (pc + 1 + refRunLength (code.getD pc 0)) (by omega) (by rw [hm1.1, hlen]) hc1
      refine ⟨b2, ?_, by rw [hl2, hm1.1], fun i hi => ?_, fun i h1 h2 => ?_⟩
      · simp only [scanLoop, hpc, if_true, hb1, bind, Except.bind, hb2]
      · rw [hlow i (by omega), hm1.below (by omega)]
      · rw [refClassify_drop_opcode hpc]
        by_cases hi0 : i = pc
        · subst hi0
          have : bitSet b2 i = false := by
            rw [hlow i (by omega), hm1.below (by omega)]
            exact hc i (Nat.le_refl _)
          simp [kindAt, this]
        · have e : i - pc = (i - pc - 1) + 1 := by omega
          rw [e, List.getElem?_cons_succ]
          by_cases hin : i < pc + 1 + refRunLength (code.getD pc 0)
          · have : bitSet b2 i = true := by
              rw [hlow i hin]
              exact hm1.inside (by omega) hin
            rw [refClassify_data _ _ _ (by omega) (by simp; omega)]
            simp [kindAt, this]
          · rw [refClassify_resume _ _ _ (by omega), List.drop_drop]
            have e2 : i - pc - 1 - refRunLength (code.getD pc 0)
                = i - (pc + 1 + refRunLength (code.getD pc 0)) := by omega
            rw [e2]
            exact hhigh i (by omega) h2
    · refine ⟨bits, ?_, rfl, fun _ _ => rfl, fun i h1 h2 => ?_⟩
      · simp only [scanLoop]
        rw [if_neg hpc]
      · omega

theorem clearFrom_replicate (m pc : Nat) : ClearFrom (List.replicate m 0) pc := by
  intro i _
  unfold bitSet
  have : (List.replicate m 0).getD (i / 8) 0 = 0 := by
    by_cases h : i / 8 < m
    · simp [List.getD, List.getElem?_replicate, h]
    · simp [List.getD, List.getElem?_replicate, h]
  rw [this]
  simp

theorem codeBitmap_spec (code : bitvec) :
    ∃ bits, codeBitmap code = .ok bits ∧
      bits.length = code.length / 8 + 1 + 4 ∧
      ∀ i, i < code.length → (refScan code)[i]? = some (kindAt bits i) := by
  obtain ⟨b, hb, hl, _, hhigh⟩ :=
    scanLoop_spec code code.length (List.replicate (code.length / 8 + 1 + 4) 0) 0
      (by omega) (by simp) (clearFrom_replicate _ _)
  refine ⟨b, hb, by rw [hl]; simp, fun i hi => ?_⟩
  have := hhigh i (Nat.zero_le _) hi
  simpa [refScan] using this

theorem codeSegment_kindAt {bits : bitvec} {pos : Nat} (h : pos / 8 < bits.length) :
    codeSegment bits pos = .ok (decide (kindAt bits pos = PosKind.opcode)) := by
  rw [codeSegment_ok h]
  unfold kindAt
  cases bitSet bits pos <;> simp

theorem codeBitmap_codeSegment (code : bitvec) :
    ∃ bits, codeBitmap code = .ok bits ∧
      bits.length = code.length / 8 + 1 + 4 ∧
      ∀ i, i < code.length →
        ∃ k, (refScan code)[i]? = some k ∧
          codeSegment bits i = .ok (decide (k = PosKind.opcode)) := by
  obtain ⟨bits, hb, hl, hk⟩ := codeBitmap_spec code
  refine ⟨bits, hb, hl, fun i hi => ⟨kindAt bits i, hk i hi, ?_⟩⟩
  exact codeSegment_kindAt (by rw [hl]; omega)

/-! ## Further facts about the reference scan -/

theorem refClassify_after_opcode (l : List Nat) :
    ∀ k p j, (refClassify k l)[p]? = some PosKind.opcode → p ≤ j →
      (refClassify k l)[j]? = (refClassify 0 (l.drop p))[j - p]? := by
  induction l with
  | nil => intro k p j h _; simp [refClassify] at h
  | cons a l ih =>
    intro k p j h hpj
    cases p with
    | zero =>
      cases k with
      | zero => simp
      | succ k => simp [refClassify] at h
    | succ p =>
      cases j with
      | zero => omega
      | succ j =>
        have e : j + 1 - (p + 1) = j - p := by omega
        cases k with
        | zero =>
          simp only [refClassify, List.getElem?_cons_succ, List.drop_succ_cons] at h ⊢
          rw [e]
          exact ih _ p j h (by omega)
        | succ k =>
          simp only [refClassify, List.getElem?_cons_succ, List.drop_succ_cons] at h ⊢
          rw [e]
          exact ih _ p j h (by omega)

theorem refClassify_take (l : List Nat) :
    ∀ k m i, i < m → (refClassify k (l.take m))[i]? = (refClassify k l)[i]? := by
  induction l with
  | nil => intro k m i _; simp
  | cons a l ih =>
    intro k m i him
    cases m with
    | zero => omega
    | succ m =>
      cases i with
      | zero => cases k <;> simp [refClassify]
      | succ i =>
        cases k with
        | zero =>
          simp only [List.take_succ_cons, refClassify, List.getElem?_cons_succ]
          exact ih _ m i (by omega)
        | succ k =>
          simp only [List.take_succ_cons, refClassify, List.getElem?_cons_succ]
          exact ih _ m i (by omega)

theorem refClassify_no_push (l : List Nat) (h : ∀ b ∈ l, ¬ (0x60 ≤ b ∧ b ≤ 0x7F)) :
    ∀ i, i < l.length → (refClassify 0 l)[i]? = some PosKind.opcode := by
  induction l with
  | nil => intro i hi; simp at hi
  | cons a l ih =>
    intro i hi
    have ha : refRunLength a = 0 := by
      simp only [refRunLength]
      rw [if_neg (h a (List.mem_cons_self _ _))]
    cases i with
    | zero => simp [refClassify]
    | succ i =>
      simp only [refClassify, List.getElem?_cons_succ, ha]
      exact ih (fun b hb => h b (List.mem_cons_of_mem _ hb)) i (by simpa using hi)

theorem refScan_run_data {code : List Nat} {p op j : Nat}
    (hread : (refScan code)[p]? = some PosKind.opcode) (hop : code[p]? = some op)
    (hpj : p < j) (hjn : j ≤ p + refRunLength op) (hj : j < code.length) :
    (refScan code)[j]? = some PosKind.data := by
  have hp : p < code.length := by omega
  have hd : code.getD p 0 = op := by simp [List.getD, hop]
  unfold refScan at hread ⊢
  rw [refClassify_after_opcode code 0 p j hread (by omega), refClassify_drop_opcode hp, hd]
  have e : j - p = (j - p - 1) + 1 := by omega
  rw [e, List.getElem?_cons_succ]
  exact refClassify_data _ _ _ (by omega) (by simp; omega)

theorem refScan_run_next {code : List Nat} {p op : Nat}
    (hread : (refScan code)[p]? = some PosKind.opcode) (hop : code[p]? = some op)
    (hj : p + refRunLength op + 1 < code.length) :
    (refScan code)[p + refRunLength op + 1]? = some PosKind.opcode := by
  have hp : p < code.length := by omega
  have hd : code.getD p 0 = op := by simp [List.getD, hop]
  unfold refScan at hread ⊢
  rw [refClassify_after_opcode code 0 p _ hread (by omega), refClassify_drop_opcode hp, hd]
  have e : p + refRunLength op + 1 - p = refRunLength op + 1 := by omega
  rw [e, List.getElem?_cons_succ, refClassify_resume _ _ _ (Nat.le_refl _), List.drop_drop,
    refClassify_drop_opcode (by omega)]
  simp

/-! ## Claims about the scanner -/

/-- C1: for every stream and every position `pos < len(code)`, `codeBitmap`
returns a vector on which `codeSegment(pos)` answers, and the answer is false
exactly when the reference left-to-right scan classifies `pos` as data and true
exactly when that scan reads `pos` as an opcode. -/
theorem C1_codeSegment_matches_reference_scan (code : bitvec) (pos : Nat)
    (hpos : pos < code.length) :
    ∃ bits b, codeBitmap code = .ok bits ∧ codeSegment bits pos = .ok b ∧
      (b = false ↔ (refScan code)[pos]? = some PosKind.data) ∧
      (b = true ↔ (refScan code)[pos]? = some PosKind.opcode) := by
  obtain ⟨bits, hb, _, hk⟩ := codeBitmap_codeSegment code
  obtain ⟨k, hk1, hk2⟩ := hk pos hpos
  refine ⟨bits, _, hb, hk2, ?_, ?_⟩
  · rw [hk1]
    cases k <;> simp
  · rw [hk1]
    cases k <;> simp

/-- C1 at the stream `[0x60, 0x5B]`, position 1: the byte after PUSH1 is data
for the reference scan and `codeSegment` answers false there. -/
theorem C1_witness :
    1 < [0x60, 0x5B].length ∧
    ∃ bits b, codeBitmap [0x60, 0x5B] = .ok bits ∧ codeSegment bits 1 = .ok b ∧
      (b = false ↔ (refScan [0x60, 0x5B])[1]? = some PosKind.data) ∧
      (b = true ↔ (refScan [0x60, 0x5B])[1]? = some PosKind.opcode) :=
  ⟨by decide, C1_codeSegment_matches_reference_scan [0x60, 0x5B] 1 (by decide)⟩

/-- C2: for every stream (any length, any byte values) `codeBitmap` runs to
completion on its allocation of `len(code)/8 + 1 + 4` bytes without any slice
index out of range, and `codeSegment(pos)` reads within that allocation for
every `pos < len(code)`; the index fault is unreachable even when the last
PUSH's data run extends past the end of the stream. -/
theorem C2_no_out_of_range_access (code : bitvec) :
    ∃ bits, codeBitmap code = .ok bits ∧
      bits.length = code.length / 8 + 1 + 4 ∧
      ∀ pos, pos < code.length → ∃ b, codeSegment bits pos = .ok b := by
  obtain ⟨bits, hb, hl, hk⟩ := codeBitmap_codeSegment code
  refine ⟨bits, hb, hl, fun pos hpos => ?_⟩
  obtain ⟨k, _, hk2⟩ := hk pos hpos
  exact ⟨_, hk2⟩

/-- C2 at the one-byte stream `[0x7F]`, whose PUSH32 run lies wholly past the
end of the stream. -/
theorem C2_witness :
    ∃ bits, codeBitmap [0x7F] = .ok bits ∧
      bits.length = [0x7F].length / 8 + 1 + 4 ∧
      ∀ pos, pos < [0x7F].length → ∃ b, codeSegment bits pos = .ok b :=
  C2_no_out_of_range_access [0x7F]

/-- C3 as stated fails: for the one-byte stream `[0x00]` the returned vector
has 5 storage bytes, not `ceil(1/8) + 1 + 4 = 6`. -/
theorem C3_counterexample :
    ∃ bits, codeBitmap [0x00] = .ok bits ∧ bits.length = 5 ∧
      bits.length ≠ ([0x00].length + 7) / 8 + 1 + 4 :=
  ⟨[0, 0, 0, 0, 0], by decide, by decide, by decide⟩

/-- C3 (amended): for every stream of length `L` the vector returned by
`codeBitmap` has exactly `L/8 + 1 + 4` storage bytes, with `L/8` the truncating
integer division of the source. -/
theorem C3_bitmap_length (code : bitvec) :
    ∃ bits, codeBitmap code = .ok bits ∧ bits.length = code.length / 8 + 1 + 4 := by
  obtain ⟨bits, hb, hl, _⟩ := codeBitmap_spec code
  exact ⟨bits, hb, hl⟩

/-- C4: for a stream made of one PUSH opcode `op` (`0x60 <= op <= 0x7F`, run
length `n = op - 0x5F`), then `n` arbitrary bytes, then any bytes none of which
lies in `0x60..0x7F`: `codeSegment(0)` is true, `codeSegment(i)` is false for
`1 <= i <= n`, and `codeSegment(i)` is true for `n < i < L`. -/
theorem C4_single_push_stream (op : Nat) (run rest : List Nat)
    (hop : 0x60 ≤ op ∧ op ≤ 0x7F) (hrun : run.length = op - 0x5F)
    (hrest : ∀ b ∈ rest, ¬ (0x60 ≤ b ∧ b ≤ 0x7F)) :
    ∃ bits, codeBitmap (op :: (run ++ rest)) = .ok bits ∧
      codeSegment bits 0 = .ok true ∧
      (∀ i, 1 ≤ i → i ≤ op - 0x5F → codeSegment bits i = .ok false) ∧
      (∀ i, op - 0x5F < i → i < (op :: (run ++ rest)).length →
        codeSegment bits i = .ok true) := by
  obtain ⟨bits, hb, _, hk⟩ := codeBitmap_codeSegment (op :: (run ++ rest))
  have hlen : (op :: (run ++ rest)).length = 1 + (op - 0x5F) + rest.length := by
    simp [hrun]
    omega
  have hr : refRunLength op = op - 0x5F := by
    simp only [refRunLength]
    rw [if_pos hop]
  have href : refScan (op :: (run ++ rest))
      = PosKind.opcode :: refClassify (op - 0x5F) (run ++ rest) := by
    simp [refScan, refClassify, hr]
  refine ⟨bits, hb, ?_, fun i h1 h2 => ?_, fun i h1 h2 => ?_⟩
  · obtain ⟨k, hk1, hk2⟩ := hk 0 (by rw [hlen]; omega)
    rw [href] at hk1
    simp only [List.getElem?_cons_zero, Option.some.injEq] at hk1
    subst hk1
    simpa using hk2
  · obtain ⟨k, hk1, hk2⟩ := hk i (by rw [hlen]; omega)
    have e : i = (i - 1) + 1 := by omega
    rw [href, e, List.getElem?_cons_succ,
      refClassify_data _ _ _ (by omega) (by simp [hrun]; omega)] at hk1
    simp only [Option.some.injEq] at hk1
    subst hk1
    simpa using hk2
  · obtain ⟨k, hk1, hk2⟩ := hk i h2
    have e : i = (i - 1) + 1 := by omega
    have hdrop : List.drop (op - 0x5F) (run ++ rest) = rest := by
      rw [← hrun]
      exact List.drop_left _ _
    rw [href, e, List.getElem?_cons_succ, refClassify_resume _ _ _ (by omega), hdrop,
      refClassify_no_push rest hrest _ (by rw [hlen] at h2; omega)] at hk1
    simp only [Option.some.injEq] at hk1
    subst hk1
    simpa using hk2

/-- C4 at the stream `[0x7F] + [0xAA]*32 + [0x00]`: code at 0, data at 1..32,
code at 33. -/
theorem C4_witness :
    (0x60 ≤ 0x7F ∧ 0x7F ≤ 0x7F) ∧ (List.replicate 32 0xAA).length = 0x7F - 0x5F ∧
    (∀ b ∈ [0x00], ¬ (0x60 ≤ b ∧ b ≤ 0x7F)) ∧
    ∃ bits, codeBitmap (0x7F :: (List.replicate 32 0xAA ++ [0x00])) = .ok bits ∧
      codeSegment bits 0 = .ok true ∧
      (∀ i, 1 ≤ i → i ≤ 0x7F - 0x5F → codeSegment bits i = .ok false) ∧
      (∀ i, 0x7F - 0x5F < i → i < (0x7F :: (List.replicate 32 0xAA ++ [0x00])).length →
        codeSegment bits i = .ok true) :=
  ⟨by decide, by decide, by decide,
    C4_single_push_stream 0x7F (List.replicate 32 0xAA) [0x00] (by decide) (by decide)
      (by decide)⟩

theorem scanStep_no_push {code : bitvec} (bits : bitvec) {pc : Nat} (hpc : pc < code.length)
    (h : ∀ b ∈ code, ¬ (0x60 ≤ b ∧ b ≤ 0x7F)) :
    scanStep code bits pc = .ok (bits, pc + 1) := by
  have hmem : code.getD pc 0 ∈ code := by
    have e : code.getD pc 0 = code[pc] := by
      simp [List.getD, List.getElem?_eq_getElem hpc]
    rw [e]
    exact List.getElem_mem hpc
  have hop : code.getD pc 0 < PUSH1 ∨ code.getD pc 0 > PUSH32 := by
    have := h _ hmem
    simp only [PUSH1, PUSH32]
    omega
  simp only [scanStep, readByte_ok hpc, bind, Except.bind, pure, Except.pure]
  rw [if_pos hop]

theorem scanLoop_no_push (code : bitvec) (h : ∀ b ∈ code, ¬ (0x60 ≤ b ∧ b ≤ 0x7F))
    (fuel : Nat) :
    ∀ (bits : bitvec) (pc : Nat), code.length ≤ pc + fuel →
      scanLoop code fuel bits pc = .ok bits := by
  induction fuel with
  | zero =>
    intro bits pc hf
    simp only [scanLoop]
    rw [if_neg (by omega)]
  | succ fuel ih =>
    intro bits pc hf
    by_cases hpc : pc < code.length
    · simp only [scanLoop, hpc, if_true, scanStep_no_push bits hpc h, bind, Except.bind]
      exact ih bits (pc + 1) (by omega)
    · simp only [scanLoop]
      rw [if_neg hpc]

/-- C5: for a stream with no byte in `0x60..0x7F`, the scan performs no write:
`codeBitmapInternal` hands back whatever vector it is given unchanged (even an
empty one, on which any access would fault), so every storage byte of the
vector `codeBitmap` returns is 0, and `codeSegment(pos)` is true for every
`pos < L`. -/
theorem C5_no_push_no_write (code : bitvec) (h : ∀ b ∈ code, ¬ (0x60 ≤ b ∧ b ≤ 0x7F)) :
    (∀ bits0, codeBitmapInternal code bits0 = .ok bits0) ∧
    ∃ bits, codeBitmap code = .ok bits ∧ (∀ b ∈ bits, b = 0) ∧
      ∀ pos, pos < code.length → codeSegment bits pos = .ok true := by
  have hint : ∀ bits0, codeBitmapInternal code bits0 = .ok bits0 := fun bits0 =>
    scanLoop_no_push code h code.length bits0 0 (by omega)
  refine ⟨hint, _, hint _, fun b hb => (List.mem_replicate.mp hb).2, fun pos hpos => ?_⟩
  rw [codeSegment_ok (by simp; omega), clearFrom_replicate _ 0 pos (Nat.zero_le _)]
  rfl

/-- C5 at the stream `[0x00, 0x5B, 0x80]`, which holds no PUSH opcode. -/
theorem C5_witness :
    (∀ b ∈ [0x00, 0x5B, 0x80], ¬ (0x60 ≤ b ∧ b ≤ 0x7F)) ∧
    (∀ bits0, codeBitmapInternal [0x00, 0x5B, 0x80] bits0 = .ok bits0) ∧
    ∃ bits, codeBitmap [0x00, 0x5B, 0x80] = .ok bits ∧ (∀ b ∈ bits, b = 0) ∧
      ∀ pos, pos < [0x00, 0x5B, 0x80].length → codeSegment bits pos = .ok true :=
  ⟨by decide, C5_no_push_no_write [0x00, 0x5B, 0x80] (by decide)⟩

theorem refScan_of_codeSegment_true {code bits : bitvec} {p : Nat} {k : PosKind}
    (hk1 : (refScan code)[p]? = some k)
    (hk2 : codeSegment bits p = .ok (decide (k = PosKind.opcode)))
    (hcode : codeSegment bits p = .ok true) :
    (refScan code)[p]? = some PosKind.opcode := by
  rw [hk2] at hcode
  cases k with
  | opcode => exact hk1
  | data => simp at hcode

/-- C6: for every stream and every position `p < L` that `codeBitmap`
classifies as code and whose byte is a PUSH opcode `op` (`0x60 <= op <= 0x7F`,
`n = op - 0x5F`), every position `j` with `p < j <= p + n` and `j < L` is
classified as data whatever byte it holds, and position `p + n + 1`, if it is
`< L`, is classified as code. -/
theorem C6_push_run_is_data (code : bitvec) (p op : Nat) (hop : code[p]? = some op)
    (hpush : 0x60 ≤ op ∧ op ≤ 0x7F) :
    ∃ bits, codeBitmap code = .ok bits ∧
      (codeSegment bits p = .ok true →
        (∀ j, p < j → j ≤ p + (op - 0x5F) → j < code.length →
          codeSegment bits j = .ok false) ∧
        (p + (op - 0x5F) + 1 < code.length →
          codeSegment bits (p + (op - 0x5F) + 1) = .ok true)) := by
  obtain ⟨bits, hb, _, hk⟩ := codeBitmap_codeSegment code
  have hp : p < code.length := by
    by_contra hge
    rw [List.getElem?_eq_none (Nat.le_of_not_lt hge)] at hop
    cases hop
  have hr : refRunLength op = op - 0x5F := by
    simp only [refRunLength]
    rw [if_pos hpush]
  refine ⟨bits, hb, fun hcode => ?_⟩
  obtain ⟨k, hk1, hk2⟩ := hk p hp
  have hread := refScan_of_codeSegment_true hk1 hk2 hcode
  refine ⟨fun j h1 h2 h3 => ?_, fun h1 => ?_⟩
  · obtain ⟨kj, hj1, hj2⟩ := hk j h3
    rw [refScan_run_data hread hop h1 (by rw [hr]; exact h2) h3] at hj1
    simp only [Option.some.injEq] at hj1
    subst hj1
    simpa using hj2
  · obtain ⟨kj, hj1, hj2⟩ := hk (p + (op - 0x5F) + 1) h1
    rw [← hr] at hj1
    rw [refScan_run_next hread hop (by rw [hr]; exact h1)] at hj1
    simp only [Option.some.injEq] at hj1
    subst hj1
    simpa using hj2

/-- C6 at the streams `[0x60, 0x5B]` and `[0x60, 0x00]`: in both, position 0
is code and position 1 is data, although `0x5B` is the JUMPDEST value. -/
theorem C6_witness :
    ([0x60, 0x5B][0]? = some 0x60 ∧ (0x60 ≤ 0x60 ∧ 0x60 ≤ 0x7F) ∧
      ∃ bits, codeBitmap [0x60, 0x5B] = .ok bits ∧
        codeSegment bits 0 = .ok true ∧ codeSegment bits 1 = .ok false) ∧
    ([0x60, 0x00][0]? = some 0x60 ∧
      ∃ bits, codeBitmap [0x60, 0x00] = .ok bits ∧
        codeSegment bits 0 = .ok true ∧ codeSegment bits 1 = .ok false) := by
  refine ⟨⟨by decide, by decide, ?_⟩, by decide, ?_⟩
  · obtain ⟨bits, hb, h⟩ := C6_push_run_is_data [0x60, 0x5B] 0 0x60 (by decide) (by decide)
    have hv : codeBitmap [0x60, 0x5B] = .ok [64, 0, 0, 0, 0] := by decide
    have hbits : bits = [64, 0, 0, 0, 0] := by
      rw [hv] at hb
      cases hb
      rfl
    have h0 : codeSegment bits 0 = .ok true := by
      rw [hbits]
      decide
    exact ⟨bits, hb, h0, (h h0).1 1 (by decide) (by decide) (by decide)⟩
  · obtain ⟨bits, hb, h⟩ := C6_push_run_is_data [0x60, 0x00] 0 0x60 (by decide) (by decide)
    have hv : codeBitmap [0x60, 0x00] = .ok [64, 0, 0, 0, 0] := by decide
    have hbits : bits = [64, 0, 0, 0, 0] := by
      rw [hv] at hb
      cases hb
      rfl
    have h0 : codeSegment bits 0 = .ok true := by
      rw [hbits]
      decide
    exact ⟨bits, hb, h0, (h h0).1 1 (by decide) (by decide) (by decide)⟩

/-- C7: for every stream of length `L >= 5` in which position `L-5` holds
`0x7F` (PUSH32) and is read as an opcode by the scan (the reference scan of C1),
so that the run extends 28 bytes past the end: `codeBitmap` completes without an
out-of-range access, classifies position `L-5` as code and positions
`L-4..L-1` as data, and classifies every position below `L-5` exactly as
`codeBitmap` applied to the first `L-5` bytes alone does. -/
theorem C7_push32_run_past_end (code : bitvec) (hL : 5 ≤ code.length)
    (hop : code[code.length - 5]? = some 0x7F)
    (hread : (refScan code)[code.length - 5]? = some PosKind.opcode) :
    ∃ bits, codeBitmap code = .ok bits ∧
      codeSegment bits (code.length - 5) = .ok true ∧
      (∀ j, code.length - 4 ≤ j → j < code.length → codeSegment bits j = .ok false) ∧
      ∃ bitsP, codeBitmap (code.take (code.length - 5)) = .ok bitsP ∧
        ∀ i, i < code.length - 5 → codeSegment bits i = codeSegment bitsP i := by
  obtain ⟨bits, hb, _, hk⟩ := codeBitmap_codeSegment code
  obtain ⟨bitsP, hbP, _, hkP⟩ := codeBitmap_codeSegment (code.take (code.length - 5))
  have hr : refRunLength 0x7F = 32 := by decide
  refine ⟨bits, hb, ?_, fun j h1 h2 => ?_, bitsP, hbP, fun i hi => ?_⟩
  · obtain ⟨k, hk1, hk2⟩ := hk (code.length - 5) (by omega)
    rw [hread] at hk1
    simp only [Option.some.injEq] at hk1
    subst hk1
    simpa using hk2
  · obtain ⟨k, hk1, hk2⟩ := hk j h2
    rw [refScan_run_data hread hop (by omega) (by rw [hr]; omega) h2] at hk1
    simp only [Option.some.injEq] at hk1
    subst hk1
    simpa using hk2
  · obtain ⟨k, hk1, hk2⟩ := hk i (by omega)
    obtain ⟨k', hk1', hk2'⟩ := hkP i (by simp; omega)
    have e : (refScan (code.take (code.length - 5)))[i]? = (refScan code)[i]? :=
      refClassify_take code 0 (code.length - 5) i hi
    rw [e, hk1] at hk1'
    simp only [Option.some.injEq] at hk1'
    subst hk1'
    rw [hk2, hk2']

/-- C7 at the stream `[0x00, 0x7F, 1, 2, 3, 4]` (`L = 6`, PUSH32 at position 1). -/
theorem C7_witness :
    5 ≤ [0x00, 0x7F, 1, 2, 3, 4].length ∧
    [0x00, 0x7F, 1, 2, 3, 4][[0x00, 0x7F, 1, 2, 3, 4].length - 5]? = some 0x7F ∧
    (refScan [0x00, 0x7F, 1, 2, 3, 4])[[0x00, 0x7F, 1, 2, 3, 4].length - 5]?
      = some PosKind.opcode ∧
    ∃ bits, codeBitmap [0x00, 0x7F, 1, 2, 3, 4] = .ok bits ∧
      codeSegment bits ([0x00, 0x7F, 1, 2, 3, 4].length - 5) = .ok true ∧
      (∀ j, [0x00, 0x7F, 1, 2, 3, 4].length - 4 ≤ j → j < [0x00, 0x7F, 1, 2, 3, 4].length →
        codeSegment bits j = .ok false) ∧
      ∃ bitsP, codeBitmap
          ([0x00, 0x7F, 1, 2, 3, 4].take ([0x00, 0x7F, 1, 2, 3, 4].length - 5)) = .ok bitsP ∧
        ∀ i, i < [0x00, 0x7F, 1, 2, 3, 4].length - 5 →
          codeSegment bits i = codeSegment bitsP i :=
  ⟨by decide, by decide, by decide,
    C7_push32_run_past_end [0x00, 0x7F, 1, 2, 3, 4] (by decide) (by decide) (by decide)⟩

/-! ## Claims about the bit vector primitives -/

theorem codeSegment_false_iff {bits : bitvec} {i : Nat} (h : i / 8 < bits.length) :
    codeSegment bits i = .ok false ↔ bitSet bits i = true := by
  rw [codeSegment_ok h]
  cases bitSet bits i <;> simp

theorem bitSet_of_byte_zero {bits : bitvec} {j : Nat} (hz : bits[j]? = some 0) :
    ∀ i, i / 8 = j → bitSet bits i = false := by
  intro i hi
  simp [bitSet, List.getD, hi, hz]

theorem setBitsMasks_mem (n : Nat) (h2 : 2 ≤ n) (h7 : n ≤ 7) :
    (n, 2 ^ 16 - 2 ^ (16 - n)) ∈ setBitsMasks := by
  interval_cases n <;> decide

/-- C8: `set1` and `codeSegment` agree on MSB-first bit addressing. For every
bit vector and every `pos < 8*len(bits)`: `codeSegment(pos)` is true iff bit
`7 - pos mod 8` of storage byte `pos/8` is 0; after `bits.set1(pos)`,
`codeSegment(pos)` is false, and for every other `q < 8*len(bits)`
`codeSegment(q)` has the value it had before the call. -/
theorem C8_set1_codeSegment_agree (bits : bitvec) (pos : Nat) (h : pos < 8 * bits.length) :
    (∃ b, bits[pos / 8]? = some b ∧
      codeSegment bits pos = .ok (!b.testBit (7 - pos % 8))) ∧
    ∃ bits', set1 bits pos = .ok bits' ∧ codeSegment bits' pos = .ok false ∧
      ∀ q, q < 8 * bits.length → q ≠ pos → codeSegment bits' q = codeSegment bits q := by
  have hp : pos / 8 < bits.length := by omega
  obtain ⟨bits', hs, hm⟩ := set1_marks bits pos hp
  refine ⟨⟨bits[pos / 8], List.getElem?_eq_getElem hp, ?_⟩, bits', hs, ?_, fun q hq hne => ?_⟩
  · rw [codeSegment_ok hp]
    simp [bitSet, List.getD, List.getElem?_eq_getElem hp]
  · rw [codeSegment_false_iff (by rw [hm.1]; exact hp)]
    exact hm.inside (Nat.le_refl _) (by omega)
  · rw [codeSegment_ok (by rw [hm.1]; omega), codeSegment_ok (by omega), hm.2]
    have : ¬ (pos ≤ q ∧ q < pos + 1) := by omega
    simp [this]

/-- C8 at the vector `[0, 0]` and position 9. -/
theorem C8_witness :
    9 < 8 * [0, 0].length ∧
    (∃ b, [0, 0][9 / 8]? = some b ∧
      codeSegment [0, 0] 9 = .ok (!b.testBit (7 - 9 % 8))) ∧
    ∃ bits', set1 [0, 0] 9 = .ok bits' ∧ codeSegment bits' 9 = .ok false ∧
      ∀ q, q < 8 * [0, 0].length → q ≠ 9 → codeSegment bits' q = codeSegment [0, 0] q :=
  ⟨by decide, C8_set1_codeSegment_agree [0, 0] 9 (by decide)⟩

/-- C9: for every `n` in 2..7 with `flag` the 16-bit mask whose top `n` bits
are 1 (one of `set2BitsMask..set7BitsMask`), every `pos` with
`pos/8 + 1 < len(bits)` and every vector whose storage byte `pos/8 + 1` is 0
before the call: `bits.setN(flag, pos)` returns, keeps the length, and
afterwards a bit index `i` is set iff it was set before or `pos <= i < pos + n`;
no storage byte other than `pos/8` and `pos/8 + 1` changes. -/
theorem C9_setN_marks_n_bits (bits : bitvec) (pos n flag : Nat) (hn : 2 ≤ n ∧ n ≤ 7)
    (hflag : flag = 2 ^ 16 - 2 ^ (16 - n)) (hlen : pos / 8 + 1 < bits.length)
    (hz : bits[pos / 8 + 1]? = some 0) :
    (n, flag) ∈ setBitsMasks ∧
    ∃ bits', setN bits flag pos = .ok bits' ∧ bits'.length = bits.length ∧
      (∀ i, i < 8 * bits.length →
        (codeSegment bits' i = .ok false ↔
          (codeSegment bits i = .ok false ∨ (pos ≤ i ∧ i < pos + n)))) ∧
      (∀ j, j ≠ pos / 8 → j ≠ pos / 8 + 1 → bits'[j]? = bits[j]?) := by
  have hp : (n, flag) ∈ setBitsMasks := by
    rw [hflag]
    exact setBitsMasks_mem n hn.1 hn.2
  have heq := @setN_eq bits pos flag hlen
  have hl : ∀ bits', setN bits flag pos = .ok bits' → bits'.length = bits.length := by
    intro bits' hs
    rw [heq] at hs
    cases hs
    split <;> simp
  refine ⟨hp, _, heq, hl _ heq, fun i hi => ?_, fun j h1 h2 => ?_⟩
  · rw [codeSegment_false_iff (by rw [hl _ heq]; omega), codeSegment_false_iff (by omega),
      setN_bitSet hp hlen (bitSet_of_byte_zero hz) heq i]
    simp
  · split
    · rw [List.getElem?_set_ne (Ne.symm h2), List.getElem?_set_ne (Ne.symm h1)]
    · rw [List.getElem?_set_ne (Ne.symm h1)]

/-- C9 at `n = 3`, `flag = set3BitsMask`, position 6 of the vector
`[0x80, 0, 0]`: the three bits straddle the byte boundary. -/
theorem C9_witness :
    (2 ≤ 3 ∧ 3 ≤ 7) ∧ set3BitsMask = 2 ^ 16 - 2 ^ (16 - 3) ∧
    6 / 8 + 1 < [0x80, 0, 0].length ∧ [0x80, 0, 0][6 / 8 + 1]? = some 0 ∧
    (3, set3BitsMask) ∈ setBitsMasks ∧
    ∃ bits', setN [0x80, 0, 0] set3BitsMask 6 = .ok bits' ∧
      bits'.length = [0x80, 0, 0].length ∧
      (∀ i, i < 8 * [0x80, 0, 0].length →
        (codeSegment bits' i = .ok false ↔
          (codeSegment [0x80, 0, 0] i = .ok false ∨ (6 ≤ i ∧ i < 6 + 3)))) ∧
      (∀ j, j ≠ 6 / 8 → j ≠ 6 / 8 + 1 → bits'[j]? = [0x80, 0, 0][j]?) :=
  ⟨by decide, by decide, by decide, by decide,
    C9_setN_marks_n_bits [0x80, 0, 0] 6 3 set3BitsMask (by decide) (by decide) (by decide)
      (by decide)⟩

/-- C10: for every `pos` with `pos/8 + 1 < len(bits)` and every vector whose
storage byte `pos/8 + 1` is 0 before the call: `bits.set8(pos)` returns, keeps
the length, and afterwards a bit index `i` is set iff it was set before or
`pos <= i < pos + 8` (also when `pos mod 8 = 0`); no storage byte other than
`pos/8` and `pos/8 + 1` changes. -/
theorem C10_set8_marks_8_bits (bits : bitvec) (pos : Nat) (hlen : pos / 8 + 1 < bits.length)
    (hz : bits[pos / 8 + 1]? = some 0) :
    ∃ bits', set8 bits pos = .ok bits' ∧ bits'.length = bits.length ∧
      (∀ i, i < 8 * bits.length →
        (codeSegment bits' i = .ok false ↔
          (codeSegment bits i = .ok false ∨ (pos ≤ i ∧ i < pos + 8)))) ∧
      (∀ j, j ≠ pos / 8 → j ≠ pos / 8 + 1 → bits'[j]? = bits[j]?) := by
  have heq := @set8_eq bits pos hlen
  refine ⟨_, heq, by simp, fun i hi => ?_, fun j h1 h2 => ?_⟩
  · rw [codeSegment_false_iff (by simp; omega), codeSegment_false_iff (by omega),
      set8_bitSet hlen (bitSet_of_byte_zero hz) heq i]
    simp
  · rw [List.getElem?_set_ne (Ne.symm h2), List.getElem?_set_ne (Ne.symm h1)]

/-- C10 at position 8 (`pos mod 8 = 0`) of the vector `[0x01, 0, 0]`. -/
theorem C10_witness :
    8 / 8 + 1 < [0x01, 0, 0].length ∧ [0x01, 0, 0][8 / 8 + 1]? = some 0 ∧
    ∃ bits', set8 [0x01, 0, 0] 8 = .ok bits' ∧ bits'.length = [0x01, 0, 0].length ∧
      (∀ i, i < 8 * [0x01, 0, 0].length →
        (codeSegment bits' i = .ok false ↔
          (codeSegment [0x01, 0, 0] i = .ok false ∨ (8 ≤ i ∧ i < 8 + 8)))) ∧
      (∀ j, j ≠ 8 / 8 → j ≠ 8 / 8 + 1 → bits'[j]? = [0x01, 0, 0][j]?) :=
  ⟨by decide, by decide, C10_set8_marks_8_bits [0x01, 0, 0] 8 (by decide) (by decide)⟩

/-- C11: for every `pos` with `pos/8 + 2 < len(bits)` and every vector whose
storage bytes `pos/8 + 1` and `pos/8 + 2` are 0 before the call:
`bits.set16(pos)` returns, keeps the length, and afterwards a bit index `i` is
set iff it was set before or `pos <= i < pos + 16` (also when `pos mod 8 = 0`);
no storage byte other than `pos/8`, `pos/8 + 1` and `pos/8 + 2` changes. -/
theorem C11_set16_marks_16_bits (bits : bitvec) (pos : Nat) (hlen : pos / 8 + 2 < bits.length)
    (hz1 : bits[pos / 8 + 1]? = some 0) (hz2 : bits[pos / 8 + 2]? = some 0) :
    ∃ bits', set16 bits pos = .ok bits' ∧ bits'.length = bits.length ∧
      (∀ i, i < 8 * bits.length →
        (codeSegment bits' i = .ok false ↔
          (codeSegment bits i = .ok false ∨ (pos ≤ i ∧ i < pos + 16)))) ∧
      (∀ j, j ≠ pos / 8 → j ≠ pos / 8 + 1 → j ≠ pos / 8 + 2 → bits'[j]? = bits[j]?) := by
  have heq := @set16_eq bits pos hlen
  have hclear : ∀ i, i / 8 = pos / 8 + 1 ∨ i / 8 = pos / 8 + 2 → bitSet bits i = false := by
    intro i hi
    rcases hi with hi | hi
    · exact bitSet_of_byte_zero hz1 i hi
    · exact bitSet_of_byte_zero hz2 i hi
  refine ⟨_, heq, by simp, fun i hi => ?_, fun j h1 h2 h3 => ?_⟩
  · rw [codeSegment_false_iff (by simp; omega), codeSegment_false_iff (by omega),
      set16_bitSet hlen hclear heq i]
    simp
  · rw [List.getElem?_set_ne (Ne.symm h3), List.getElem?_set_ne (Ne.symm h2),
      List.getElem?_set_ne (Ne.symm h1)]

/-- C11 at position 16 (`pos mod 8 = 0`) of the vector `[0, 0x01, 0, 0, 0]`. -/
theorem C11_witness :
    16 / 8 + 2 < [0, 0x01, 0, 0, 0].length ∧ [0, 0x01, 0, 0, 0][16 / 8 + 1]? = some 0 ∧
    [0, 0x01, 0, 0, 0][16 / 8 + 2]? = some 0 ∧
    ∃ bits', set16 [0, 0x01, 0, 0, 0] 16 = .ok bits' ∧
      bits'.length = [0, 0x01, 0, 0, 0].length ∧
      (∀ i, i < 8 * [0, 0x01, 0, 0, 0].length →
        (codeSegment bits' i = .ok false ↔
          (codeSegment [0, 0x01, 0, 0, 0] i = .ok false ∨ (16 ≤ i ∧ i < 16 + 16)))) ∧
      (∀ j, j ≠ 16 / 8 → j ≠ 16 / 8 + 1 → j ≠ 16 / 8 + 2 →
        bits'[j]? = [0, 0x01, 0, 0, 0][j]?) :=
  ⟨by decide, by decide, by decide,
    C11_set16_marks_16_bits [0, 0x01, 0, 0, 0] 16 (by decide) (by decide) (by decide)⟩

/-- C16: prefix stability. For all streams `a` and `b` and every
`pos < len(a)`, `codeBitmap` returns on both `a ++ b` and `a`, and
`codeSegment(pos)` gives the same answer on the two vectors. -/
theorem C16_prefix_stability (a b : bitvec) (pos : Nat) (hpos : pos < a.length) :
    ∃ bitsAB bitsA v, codeBitmap (a ++ b) = .ok bitsAB ∧ codeBitmap a = .ok bitsA ∧
      codeSegment bitsAB pos = .ok v ∧ codeSegment bitsA pos = .ok v := by
  obtain ⟨bitsAB, hAB, _, hkAB⟩ := codeBitmap_codeSegment (a ++ b)
  obtain ⟨bitsA, hA, _, hkA⟩ := codeBitmap_codeSegment a
  obtain ⟨k, hk1, hk2⟩ := hkAB pos (by simp; omega)
  obtain ⟨k', hk1', hk2'⟩ := hkA pos hpos
  have e : (refScan a)[pos]? = (refScan (a ++ b))[pos]? := by
    have := refClassify_take (a ++ b) 0 a.length pos hpos
    simpa [refScan] using this
  rw [e, hk1] at hk1'
  simp only [Option.some.injEq] at hk1'
  subst hk1'
  exact ⟨bitsAB, bitsA, _, hAB, hA, hk2, hk2'⟩

/-- C16 at `a = [0x61, 0x5B]`, `b = [0x5B, 0x00]`, position 1: the PUSH2 run is
cut by the end of `a`, and position 1 is data with and without `b`. -/
theorem C16_witness :
    1 < [0x61, 0x5B].length ∧
    ∃ bitsAB bitsA v, codeBitmap ([0x61, 0x5B] ++ [0x5B, 0x00]) = .ok bitsAB ∧
      codeBitmap [0x61, 0x5B] = .ok bitsA ∧
      codeSegment bitsAB 1 = .ok v ∧ codeSegment bitsA 1 = .ok v :=
  ⟨by decide, C16_prefix_stability [0x61, 0x5B] [0x5B, 0x00] 1 (by decide)⟩

theorem refClassify_congr (s : List Nat) :
    ∀ (t : List Nat) (k : Nat), s.length = t.length →
      (∀ p : Nat, (refClassify k s)[p]? = some PosKind.opcode → s[p]? = t[p]?) →
      refClassify k s = refClassify k t := by
  induction s with
  | nil =>
    intro t k hlen _
    cases t with
    | nil => rfl
    | cons b t => simp at hlen
  | cons a s ih =>
    intro t k hlen h
    cases t with
    | nil => simp at hlen
    | cons b t =>
      have hlen' : s.length = t.length := by simpa using hlen
      cases k with
      | zero =>
        have hab : a = b := by
          have := h 0 (by simp [refClassify])
          simpa using this
        subst hab
        simp only [refClassify]
        congr 1
        exact ih t _ hlen' (fun p hp => by
          have := h (p + 1) (by simpa [refClassify] using hp)
          simpa using this)
      | succ k =>
        simp only [refClassify]
        congr 1
        exact ih t _ hlen' (fun p hp => by
          have := h (p + 1) (by simpa [refClassify] using hp)
          simpa using this)

/-- C15: data-byte values do not influence classification. For two streams
`s` and `t` of equal length such that `t[p] = s[p]` at every position `p` that
`codeBitmap(s)` classifies as code, `codeBitmap` returns on both and
`codeSegment(pos)` gives the same answer on the two vectors for every
`pos < L`. -/
theorem C15_data_bytes_do_not_matter (s t : bitvec) (hlen : s.length = t.length)
    (hagree : ∀ bits p, codeBitmap s = .ok bits → p < s.length →
      codeSegment bits p = .ok true → t[p]? = s[p]?) :
    ∃ bitsS bitsT, codeBitmap s = .ok bitsS ∧ codeBitmap t = .ok bitsT ∧
      ∀ pos, pos < s.length →
        ∃ v, codeSegment bitsS pos = .ok v ∧ codeSegment bitsT pos = .ok v := by
  obtain ⟨bitsS, hS, _, hkS⟩ := codeBitmap_codeSegment s
  obtain ⟨bitsT, hT, _, hkT⟩ := codeBitmap_codeSegment t
  have href : refScan s = refScan t := by
    refine refClassify_congr s t 0 hlen (fun p hp => ?_)
    have hp' : p < s.length := by
      by_contra hge
      have hlen2 : (refClassify 0 s).length ≤ p := by
        rw [refClassify_length]
        omega
      rw [List.getElem?_eq_none hlen2] at hp
      cases hp
    obtain ⟨k, hk1, hk2⟩ := hkS p hp'
    have hk : k = PosKind.opcode := by
      have : (refScan s)[p]? = some PosKind.opcode := hp
      rw [hk1] at this
      simpa using this
    subst hk
    exact (hagree bitsS p hS hp' (by simpa using hk2)).symm
  refine ⟨bitsS, bitsT, hS, hT, fun pos hpos => ?_⟩
  obtain ⟨k, hk1, hk2⟩ := hkS pos hpos
  obtain ⟨k', hk1', hk2'⟩ := hkT pos (by omega)
  rw [← href, hk1] at hk1'
  simp only [Option.some.injEq] at hk1'
  subst hk1'
  exact ⟨_, hk2, hk2'⟩

/-- C15 at `s = [0x60, 0x5B, 0x00]` and `t = [0x60, 0x60, 0x00]`, which differ
only in the data byte of the PUSH1 (set to a PUSH value in `t`). -/
theorem C15_witness :
    [0x60, 0x5B, 0x00].length = [0x60, 0x60, 0x00].length ∧
    ∃ bitsS bitsT, codeBitmap [0x60, 0x5B, 0x00] = .ok bitsS ∧
      codeBitmap [0x60, 0x60, 0x00] = .ok bitsT ∧
      ∀ pos, pos < [0x60, 0x5B, 0x00].length →
        ∃ v, codeSegment bitsS pos = .ok v ∧ codeSegment bitsT pos = .ok v := by
  refine ⟨by decide, C15_data_bytes_do_not_matter [0x60, 0x5B, 0x00] [0x60, 0x60, 0x00]
    (by decide) (fun bits p hb hp hc => ?_)⟩
  have hv : codeBitmap [0x60, 0x5B, 0x00] = .ok [64, 0, 0, 0, 0] := by decide
  rw [hv] at hb
  cases hb
  have hp3 : p < 3 := hp
  interval_cases p
  · decide
  · exact absurd hc (by decide)
  · decide

/-- C12: `codeBitmap` is deterministic. It returns a vector for every stream;
any two runs on the same bytes return that same vector; and the answers of
`codeSegment` to any sequence of queries `pos < L` on it, in any order and with
any repetition, are the pointwise answers fixed by the bytes of the stream
(true exactly at the opcode positions of the reference scan): a query does not
change the vector. -/
theorem C12_codeBitmap_deterministic (code : bitvec) :
    ∃ bits, codeBitmap code = .ok bits ∧
      (∀ bits1 bits2, codeBitmap code = .ok bits1 → codeBitmap code = .ok bits2 →
        bits1 = bits2) ∧
      ∀ qs : List Nat, (∀ q ∈ qs, q < code.length) →
        qs.mapM (codeSegment bits)
          = .ok (qs.map (fun q => decide ((refScan code)[q]? = some PosKind.opcode))) := by
  obtain ⟨bits, hb, _, hk⟩ := codeBitmap_codeSegment code
  refine ⟨bits, hb, fun b1 b2 h1 h2 => ?_, fun qs => ?_⟩
  · rw [h1] at h2
    cases h2
    rfl
  · induction qs with
    | nil => intro _; rfl
    | cons q qs ih =>
      intro hq
      obtain ⟨k, hk1, hk2⟩ := hk q (hq q (List.mem_cons_self _ _))
      have hv : decide (k = PosKind.opcode)
          = decide ((refScan code)[q]? = some PosKind.opcode) := by
        rw [hk1]
        cases k <;> simp
      rw [List.mapM_cons, hk2, ih (fun q' hq' => hq q' (List.mem_cons_of_mem _ hq'))]
      simp only [bind, Except.bind, pure, Except.pure, List.map_cons, hv]

/-- C12 at the stream `[0x60, 0x5B, 0x00]` with the queries 2, 1, 0, 1. -/
theorem C12_witness :
    (∀ q ∈ [2, 1, 0, 1], q < [0x60, 0x5B, 0x00].length) ∧
    ∃ bits, codeBitmap [0x60, 0x5B, 0x00] = .ok bits ∧
      [2, 1, 0, 1].mapM (codeSegment bits) = .ok [true, false, true, false] := by
  refine ⟨by decide, ?_⟩
  obtain ⟨bits, hb, _, hq⟩ := C12_codeBitmap_deterministic [0x60, 0x5B, 0x00]
  exact ⟨bits, hb, hq [2, 1, 0, 1] (by decide)⟩

/-! ## Termination and the cursor -/

theorem scanLoopTrace_spec (code : bitvec) (fuel : Nat) :
    ∀ (bits : bitvec) (pc : Nat), code.length ≤ pc + fuel →
      bits.length = code.length / 8 + 1 + 4 → ClearFrom bits pc → pc ≤ code.length + 32 →
      ∃ bits' tr, scanLoopTrace code fuel bits pc = .ok (bits', pc :: tr) ∧
        scanLoop code fuel bits pc = .ok bits' ∧
        (∀ k, k + 1 < (pc :: tr).length →
          ∃ p, (pc :: tr)[k]? = some p ∧ p < code.length ∧
            (pc :: tr)[k + 1]? = some (p + 1 + refRunLength (code.getD p 0))) ∧
        (pc :: tr).length ≤ (code.length - pc) + 1 ∧
        ∃ last, (pc :: tr).getLast? = some last ∧ code.length ≤ last ∧
          last ≤ code.length + 32 := by
  induction fuel with
  | zero =>
    intro bits pc hf _ _ hpc
    refine ⟨bits, [], ?_, ?_, fun k hk => ?_, by simp, pc, rfl, by omega, hpc⟩
    · simp only [scanLoopTrace]
      rw [if_neg (by omega)]
    · simp only [scanLoop]
      rw [if_neg (by omega)]
    · simp at hk
  | succ fuel ih =>
    intro bits pc hf hlen hc hpc32
    by_cases hpc : pc < code.length
    · obtain ⟨b1, hb1, hm1⟩ := scanStep_spec hpc hlen (fun i hi => hc i (by omega))
      have hc1 : ClearFrom b1 (pc + 1 + refRunLength (code.getD pc 0)) :=
        hm1.clearFrom (fun i hi => hc i (by omega)) (by omega)
      have hrl : refRunLength (code.getD pc 0) ≤ 32 := by
        simp only [refRunLength]
        split <;> omega
      obtain ⟨b2, tr, ht, hl, hchain, hcount, last, hlast, hlast1, hlast2⟩ :=
        ih b1 (pc + 1 + refRunLength (code.getD pc 0)) (by omega) (by rw [hm1.1, hlen]) hc1
          (by omega)
      refine ⟨b2, (pc + 1 + refRunLength (code.getD pc 0)) :: tr, ?_, ?_, fun k hk => ?_, ?_,
        last, ?_, hlast1, hlast2⟩
      · simp only [scanLoopTrace, hpc, if_true, hb1, bind, Except.bind, ht, pure, Except.pure]
      · simp only [scanLoop, hpc, if_true, hb1, bind, Except.bind, hl]
      · cases k with
        | zero => exact ⟨pc, rfl, hpc, by simp⟩
        | succ k =>
          obtain ⟨p, hp1, hp2, hp3⟩ := hchain k (by simpa using hk)
          exact ⟨p, by simpa using hp1, hp2, by simpa using hp3⟩
      · simp only [List.length_cons] at hcount ⊢
        omega
      · rw [List.getLast?_cons_cons]
        exact hlast
    · refine ⟨bits, [], ?_, ?_, fun k hk => ?_, by simp, pc, rfl, by omega, hpc32⟩
      · simp only [scanLoopTrace]
        rw [if_neg hpc]
      · simp only [scanLoop]
        rw [if_neg hpc]
      · simp at hk

/-- C14: for every stream the scan loop of `codeBitmapInternal` terminates.
The loop granted `len(code)` iterations runs to its exit and yields the vector
of `codeBitmap`; the cursor starts at 0; each iteration that reads an opcode
`op` at position `p` leaves the cursor at exactly `p + 1 + n` with
`n = op - 0x5F` for `0x60 <= op <= 0x7F` and `n = 0` otherwise (so the cursor
strictly increases); at most `L` iterations run; and the cursor at loop exit is
at least `L` and at most `L + 32`. -/
theorem C14_scan_loop_terminates (code : bitvec) :
    ∃ bits cursors,
      scanLoopTrace code code.length (List.replicate (code.length / 8 + 1 + 4) 0) 0
        = .ok (bits, cursors) ∧
      codeBitmap code = .ok bits ∧
      cursors.head? = some 0 ∧
      (∀ k, k + 1 < cursors.length →
        ∃ p op, cursors[k]? = some p ∧ code[p]? = some op ∧
          cursors[k + 1]? = some (p + 1 + (if 0x60 ≤ op ∧ op ≤ 0x7F then op - 0x5F else 0))) ∧
      cursors.length ≤ code.length + 1 ∧
      ∃ last, cursors.getLast? = some last ∧ code.length ≤ last ∧
        last ≤ code.length + 32 := by
  obtain ⟨bits, tr, ht, hl, hchain, hcount, hlast⟩ :=
    scanLoopTrace_spec code code.length (List.replicate (code.length / 8 + 1 + 4) 0) 0
      (by omega) (by simp) (clearFrom_replicate _ _) (by omega)
  refine ⟨bits, 0 :: tr, ht, hl, rfl, fun k hk => ?_, by simpa using hcount, hlast⟩
  obtain ⟨p, hp1, hp2, hp3⟩ := hchain k hk
  refine ⟨p, code.getD p 0, hp1, ?_, hp3⟩
  simp [List.getD, List.getElem?_eq_getElem hp2]

/-- C14 at the stream `[0x61, 0x5B, 0x60, 0x7F]`: the cursor takes the values
0, 3, 36, so two iterations run and the loop exits at `36 = L + 32`. -/
theorem C14_witness :
    ∃ bits, scanLoopTrace [0x61, 0x5B, 0x60, 0x7F] [0x61, 0x5B, 0x60, 0x7F].length
        (List.replicate ([0x61, 0x5B, 0x60, 0x7F].length / 8 + 1 + 4) 0) 0
        = .ok (bits, [0, 3, 36]) ∧
      codeBitmap [0x61, 0x5B, 0x60, 0x7F] = .ok bits := by
  obtain ⟨bits, cursors, ht, hb, _⟩ := C14_scan_loop_terminates [0x61, 0x5B, 0x60, 0x7F]
  have hv : scanLoopTrace [0x61, 0x5B, 0x60, 0x7F] [0x61, 0x5B, 0x60, 0x7F].length
      (List.replicate ([0x61, 0x5B, 0x60, 0x7F].length / 8 + 1 + 4) 0) 0
      = .ok ([0x6F, 0xFF, 0xFF, 0xFF, 0xF0], [0, 3, 36]) := by decide
  rw [hv] at ht
  cases ht
  exact ⟨_, hv, hb⟩

/-! ## The overwrite-safety invariant -/

theorem assertClearFrom_ok {bits : bitvec} {pc : Nat} (hc : ClearFrom bits pc) :
    assertClearFrom bits pc = .ok () := by
  unfold assertClearFrom
  rw [if_pos]
  rw [List.all_eq_true]
  intro i hi
  have hi' : i < 8 * bits.length := List.mem_range.mp hi
  by_cases hlt : i < pc
  · simp [hlt]
  · have h1 : codeSegment bits i = .ok true := by
      rw [codeSegment_ok (by omega), hc i (by omega)]
      rfl
    simp [h1]

theorem assertByteZero_ok {bits : bitvec} {pc j : Nat} (hz : ZeroFrom bits pc)
    (h : pc ≤ 8 * j) : assertByteZero bits j = .ok () := by
  unfold assertByteZero
  have := hz j h
  cases hb : bits[j]? with
  | none => rfl
  | some b =>
    have hb0 : b = 0 := by simpa [List.getD, hb] using this
    simp [hb0]

theorem getD_set (bits : bitvec) (j v i : Nat) (hij : i ≠ j) :
    (bits.set j v).getD i 0 = bits.getD i 0 := by
  simp [List.getD, List.getElem?_set_ne (Ne.symm hij)]

theorem getD_set_self (bits : bitvec) (j v : Nat) (hj : j < bits.length) :
    (bits.set j v).getD j 0 = v := by
  simp [List.getD, List.getElem?_set, hj]

theorem set1_zeroFrom {bits bits' : bitvec} {pos : Nat} (h : pos / 8 < bits.length)
    (hs : set1 bits pos = .ok bits') (hz : ZeroFrom bits pos) : ZeroFrom bits' (pos + 1) := by
  rw [set1_eq h] at hs
  cases hs
  intro j hj
  rw [getD_set _ _ _ _ (by omega)]
  exact hz j (by omega)

theorem setN_zeroFrom {bits bits' : bitvec} {pos n flag : Nat}
    (hp : (n, flag) ∈ setBitsMasks) (h : pos / 8 + 1 < bits.length)
    (hs : setN bits flag pos = .ok bits') (hz : ZeroFrom bits pos) :
    ZeroFrom bits' (pos + n) := by
  rw [setN_eq flag h] at hs
  cases hs
  have hr : pos % 8 < 8 := Nat.mod_lt _ (by decide)
  have hlo := setN_lo_eq_zero _ hp _ hr
  simp only at hlo
  intro j hj
  split
  · rename_i hne
    have hgt : ¬ (pos % 8 + n ≤ 8) := fun hle => hne (hlo.mpr hle)
    rw [getD_set _ _ _ _ (by omega), getD_set _ _ _ _ (by omega)]
    exact hz j (by omega)
  · have hn : 2 ≤ n := by
      simp only [setBitsMasks, List.mem_cons, Prod.mk.injEq, List.mem_singleton,
        List.not_mem_nil, or_false] at hp
      omega
    rw [getD_set _ _ _ _ (by omega)]
    exact hz j (by omega)

theorem set8_zeroFrom {bits bits' : bitvec} {pos : Nat} (h : pos / 8 + 1 < bits.length)
    (hs : set8 bits pos = .ok bits') (hz : ZeroFrom bits pos) : ZeroFrom bits' (pos + 8) := by
  rw [set8_eq h] at hs
  cases hs
  intro j hj
  by_cases hj1 : j = pos / 8 + 1
  · subst hj1
    have hr0 : pos % 8 = 0 := by omega
    rw [getD_set_self _ _ _ (by simpa using h), hr0]
    rfl
  · rw [getD_set _ _ _ _ hj1, getD_set _ _ _ _ (by omega)]
    exact hz j (by omega)

theorem set16_zeroFrom {bits bits' : bitvec} {pos : Nat} (h : pos / 8 + 2 < bits.length)
    (hs : set16 bits pos = .ok bits') (hz : ZeroFrom bits pos) : ZeroFrom bits' (pos + 16) := by
  rw [set16_eq h] at hs
  cases hs
  intro j hj
  by_cases hj2 : j = pos / 8 + 2
  · subst hj2
    have hr0 : pos % 8 = 0 := by omega
    rw [getD_set_self _ _ _ (by simpa using h), hr0]
    rfl
  · rw [getD_set _ _ _ _ hj2, getD_set _ _ _ _ (by omega), getD_set _ _ _ _ (by omega)]
    exact hz j (by omega)

theorem set1Checked_eq {bits bits' : bitvec} {pos : Nat} (hc : ClearFrom bits pos)
    (hs : set1 bits pos = .ok bits') : set1Checked bits pos = .ok bits' := by
  simp only [set1Checked, assertClearFrom_ok hc, bind, Except.bind, hs, liftFault]

theorem setNChecked_eq {bits bits' : bitvec} {pos : Nat} (flag : Nat) (hc : ClearFrom bits pos)
    (hz : ZeroFrom bits pos) (hs : setN bits flag pos = .ok bits') :
    setNChecked bits flag pos = .ok bits' := by
  simp only [setNChecked, assertClearFrom_ok hc, bind, Except.bind, hs, liftFault]
  split
  · rw [assertByteZero_ok hz (by omega)]
  · rfl

theorem set8Checked_eq {bits bits' : bitvec} {pos : Nat} (hc : ClearFrom bits pos)
    (hz : ZeroFrom bits pos) (hs : set8 bits pos = .ok bits') :
    set8Checked bits pos = .ok bits' := by
  simp only [set8Checked, assertClearFrom_ok hc, assertByteZero_ok hz (j := pos / 8 + 1) (by omega),
    bind, Except.bind, hs, liftFault]

theorem set16Checked_eq {bits bits' : bitvec} {pos : Nat} (hc : ClearFrom bits pos)
    (hz : ZeroFrom bits pos) (hs : set16 bits pos = .ok bits') :
    set16Checked bits pos = .ok bits' := by
  simp only [set16Checked, assertClearFrom_ok hc,
    assertByteZero_ok hz (j := pos / 8 + 1) (by omega),
    assertByteZero_ok hz (j := pos / 8 + 2) (by omega), bind, Except.bind, hs, liftFault]

theorem set16LoopChecked_spec (fuel : Nat) :
    ∀ (bits : bitvec) (n pc : Nat), n ≤ fuel → (pc + n) / 8 < bits.length →
      ClearFrom bits pc → ZeroFrom bits pc →
      ∃ bits', set16Loop fuel bits n pc = .ok (bits', n % 16, pc + 16 * (n / 16)) ∧
        set16LoopChecked fuel bits n pc = .ok (bits', n % 16, pc + 16 * (n / 16)) ∧
        Marks bits bits' pc (pc + 16 * (n / 16)) ∧
        ZeroFrom bits' (pc + 16 * (n / 16)) := by
  induction fuel with
  | zero =>
    intro bits n pc hn _ _ hz
    have hn0 : n = 0 := by omega
    subst hn0
    exact ⟨bits, by simp [set16Loop], by simp [set16LoopChecked], Marks.refl _ _, hz⟩
  | succ fuel ih =>
    intro bits n pc hn hlen hc hz
    by_cases h16 : n ≥ 16
    · have hin : pc / 8 + 2 < bits.length := by omega
      obtain ⟨b1, hb1, hm1⟩ := set16_marks bits pc hin hc
      have hc1 : ClearFrom b1 (pc + 16) := hm1.clearFrom hc (by omega)
      have hz1 : ZeroFrom b1 (pc + 16) := set16_zeroFrom hin hb1 hz
      obtain ⟨b2, hb2, hb2c, hm2, hz2⟩ := ih b1 (n - 16) (pc + 16) (by omega)
        (by rw [hm1.1]; omega) hc1 hz1
      have e1 : (n - 16) % 16 = n % 16 := by omega
      have e2 : pc + 16 + 16 * ((n - 16) / 16) = pc + 16 * (n / 16) := by omega
      rw [e1, e2] at hb2 hb2c
      rw [e2] at hm2 hz2
      refine ⟨b2, ?_, ?_, hm1.trans hm2 (by omega) (by omega), hz2⟩
      · simp only [set16Loop, h16, if_true, hb1, bind, Except.bind, hb2]
      · simp only [set16LoopChecked, h16, if_true, set16Checked_eq hc hz hb1, bind,
          Except.bind, hb2c]
    · have e1 : n % 16 = n := by omega
      have e2 : n / 16 = 0 := by omega
      refine ⟨bits, ?_, ?_, ?_, ?_⟩
      · simp [set16Loop, h16, e1, e2]
      · simp [set16LoopChecked, h16, e1, e2]
      · rw [e2]
        exact Marks.refl _ _
      · rw [e2]
        exact hz

theorem set8LoopChecked_spec (fuel : Nat) :
    ∀ (bits : bitvec) (n pc : Nat), n ≤ fuel → (pc + n) / 8 < bits.length →
      ClearFrom bits pc → ZeroFrom bits pc →
      ∃ bits', set8Loop fuel bits n pc = .ok (bits', n % 8, pc + 8 * (n / 8)) ∧
        set8LoopChecked fuel bits n pc = .ok (bits', n % 8, pc + 8 * (n / 8)) ∧
        Marks bits bits' pc (pc + 8 * (n / 8)) ∧
        ZeroFrom bits' (pc + 8 * (n / 8)) := by
  induction fuel with
  | zero =>
    intro bits n pc hn _ _ hz
    have hn0 : n = 0 := by omega
    subst hn0
    exact ⟨bits, by simp [set8Loop], by simp [set8LoopChecked], Marks.refl _ _, hz⟩
  | succ fuel ih =>
    intro bits n pc hn hlen hc hz
    by_cases h8 : n ≥ 8
    · have hin : pc / 8 + 1 < bits.length := by omega
      obtain ⟨b1, hb1, hm1⟩ := set8_marks bits pc hin hc
      have hc1 : ClearFrom b1 (pc + 8) := hm1.clearFrom hc (by omega)
      have hz1 : ZeroFrom b1 (pc + 8) := set8_zeroFrom hin hb1 hz
      obtain ⟨b2, hb2, hb2c, hm2, hz2⟩ := ih b1 (n - 8) (pc + 8) (by omega)
        (by rw [hm1.1]; omega) hc1 hz1
      have e1 : (n - 8) % 8 = n % 8 := by omega
      have e2 : pc + 8 + 8 * ((n - 8) / 8) = pc + 8 * (n / 8) := by omega
      rw [e1, e2] at hb2 hb2c
      rw [e2] at hm2 hz2
      refine ⟨b2, ?_, ?_, hm1.trans hm2 (by omega) (by omega), hz2⟩
      · simp only [set8Loop, h8, if_true, hb1, bind, Except.bind, hb2]
      · simp only [set8LoopChecked, h8, if_true, set8Checked_eq hc hz hb1, bind,
          Except.bind, hb2c]
    · have e1 : n % 8 = n := by omega
      have e2 : n / 8 = 0 := by omega
      refine ⟨bits, ?_, ?_, ?_, ?_⟩
      · simp [set8Loop, h8, e1, e2]
      · simp [set8LoopChecked, h8, e1, e2]
      · rw [e2]
        exact Marks.refl _ _
      · rw [e2]
        exact hz

theorem switchChecked_setN_case (bits : bitvec) (pc n flag : Nat)
    (hp : (n, flag) ∈ setBitsMasks) (hl : pc / 8 + 1 < bits.length)
    (hc : ClearFrom bits pc) (hz : ZeroFrom bits pc) :
    ∃ bits', (do let b ← setN bits flag pc; pure (b, pc + n) : Except Fault (bitvec × Nat))
        = .ok (bits', pc + n) ∧
      (do let b ← setNChecked bits flag pc; pure (b, pc + n) :
          Except CheckFault (bitvec × Nat)) = .ok (bits', pc + n) ∧
      Marks bits bits' pc (pc + n) ∧ ZeroFrom bits' (pc + n) := by
  obtain ⟨b, hb, hm⟩ := setN_marks bits pc n flag hp hl hc
  refine ⟨b, ?_, ?_, hm, setN_zeroFrom hp hl hb hz⟩
  · simp [hb, bind, Except.bind, pure, Except.pure]
  · simp [setNChecked_eq flag hc hz hb, bind, Except.bind, pure, Except.pure]

theorem switchNumbitsChecked_spec (bits : bitvec) (n pc : Nat) (hn : n < 8)
    (hlen : n = 0 ∨ pc / 8 + 1 < bits.length) (hc : ClearFrom bits pc)
    (hz : ZeroFrom bits pc) :
    ∃ bits', switchNumbits bits n pc = .ok (bits', pc + n) ∧
      switchNumbitsChecked bits n pc = .ok (bits', pc + n) ∧
      Marks bits bits' pc (pc + n) ∧ ZeroFrom bits' (pc + n) := by
  interval_cases n
  · exact ⟨bits, rfl, rfl, Marks.refl _ _, hz⟩
  · have hin : pc / 8 < bits.length := by omega
    obtain ⟨b, hb, hm⟩ := set1_marks bits pc hin
    refine ⟨b, ?_, ?_, hm, set1_zeroFrom hin hb hz⟩
    · simp [switchNumbits, hb, bind, Except.bind, pure, Except.pure]
    · simp [switchNumbitsChecked, set1Checked_eq hc hb, bind, Except.bind, pure, Except.pure]
  · exact switchChecked_setN_case bits pc 2 set2BitsMask (by decide) (by omega) hc hz
  · exact switchChecked_setN_case bits pc 3 set3BitsMask (by decide) (by omega) hc hz
  · exact switchChecked_setN_case bits pc 4 set4BitsMask (by decide) (by omega) hc hz
  · exact switchChecked_setN_case bits pc 5 set5BitsMask (by decide) (by omega) hc hz
  · exact switchChecked_setN_case bits pc 6 set6BitsMask (by decide) (by omega) hc hz
  · exact switchChecked_setN_case bits pc 7 set7BitsMask (by decide) (by omega) hc hz

theorem markRunChecked_spec (bits : bitvec) (n pc : Nat) (hn : n ≤ 32)
    (hlen : pc / 8 + 4 < bits.length) (hc : ClearFrom bits pc) (hz : ZeroFrom bits pc) :
    ∃ bits', markRun bits n pc = .ok (bits', pc + n) ∧
      markRunChecked bits n pc = .ok (bits', pc + n) ∧
      Marks bits bits' pc (pc + n) ∧ ZeroFrom bits' (pc + n) := by
  by_cases h8 : n ≥ 8
  · obtain ⟨b1, hb1, hb1c, hm1, hz1⟩ :=
      set16LoopChecked_spec n bits n pc (Nat.le_refl _) (by omega) hc hz
    have hc1 := hm1.clearFrom hc (by omega)
    obtain ⟨b2, hb2, hb2c, hm2, hz2⟩ :=
      set8LoopChecked_spec (n % 16) b1 (n % 16) (pc + 16 * (n / 16))
        (Nat.le_refl _) (by rw [hm1.1]; omega) hc1 hz1
    have hc2 := hm2.clearFrom hc1 (by omega)
    obtain ⟨b3, hb3, hb3c, hm3, hz3⟩ := switchNumbitsChecked_spec b2 (n % 16 % 8)
      (pc + 16 * (n / 16) + 8 * (n % 16 / 8)) (by omega)
      (by rw [hm2.1, hm1.1]; omega) hc2 hz2
    have e : pc + 16 * (n / 16) + 8 * (n % 16 / 8) + n % 16 % 8 = pc + n := by omega
    rw [e] at hb3 hb3c hm3 hz3
    refine ⟨b3, ?_, ?_,
      (hm1.trans hm2 (by omega) (by omega)).trans hm3 (by omega) (by omega), hz3⟩
    · simp only [markRun, h8, if_true, hb1, bind, Except.bind, hb2, hb3]
    · simp only [markRunChecked, h8, if_true, hb1c, bind, Except.bind, hb2c, hb3c]
  · obtain ⟨b3, hb3, hb3c, hm3, hz3⟩ := switchNumbitsChecked_spec bits n pc
      (by omega) (by omega) hc hz
    refine ⟨b3, ?_, ?_, hm3, hz3⟩
    · simp only [markRun, h8, if_false, bind, Except.bind, pure, Except.pure, hb3]
    · simp only [markRunChecked, h8, if_false, bind, Except.bind, pure, Except.pure, hb3c]

theorem scanStepChecked_spec {code bits : bitvec} {pc : Nat} (hpc : pc < code.length)
    (hlen : bits.length = code.length / 8 + 1 + 4) (hc : ClearFrom bits pc)
    (hz : ZeroFrom bits pc) :
    ∃ bits' next, scanStep code bits pc = .ok (bits', next) ∧
      scanStepChecked code bits pc = .ok (bits', next) ∧
      pc < next ∧ bits'.length = bits.length ∧ ClearFrom bits' next ∧ ZeroFrom bits' next := by
  have hc1 : ClearFrom bits (pc + 1) := fun i hi => hc i (by omega)
  have hz1 : ZeroFrom bits (pc + 1) := fun j hj => hz j (by omega)
  by_cases hop : code.getD pc 0 < PUSH1 ∨ code.getD pc 0 > PUSH32
  · refine ⟨bits, pc + 1, ?_, ?_, by omega, rfl, hc1, hz1⟩
    · simp only [scanStep, readByte_ok hpc, bind, Except.bind, pure, Except.pure]
      rw [if_pos hop]
    · simp only [scanStepChecked, assertClearFrom_ok hc, readByte_ok hpc, liftFault, bind,
        Except.bind, pure, Except.pure]
      rw [if_pos hop]
  · have hop' : 0x60 ≤ code.getD pc 0 ∧ code.getD pc 0 ≤ 0x7F := by
      simp only [PUSH1, PUSH32] at hop
      omega
    obtain ⟨b1, hb1, hb1c, hm1, hzr⟩ := markRunChecked_spec bits (code.getD pc 0 - PUSH1 + 1)
      (pc + 1) (by simp only [PUSH1]; omega) (by rw [hlen]; omega) hc1 hz1
    refine ⟨b1, _, ?_, ?_, by omega, hm1.1, hm1.clearFrom hc1 (by omega), hzr⟩
    · simp only [scanStep, readByte_ok hpc, bind, Except.bind, hop, if_false, hb1]
    · simp only [scanStepChecked, assertClearFrom_ok hc, readByte_ok hpc, liftFault, bind,
        Except.bind, hop, if_false, hb1c]

theorem scanLoopChecked_spec (code : bitvec) (fuel : Nat) :
    ∀ (bits : bitvec) (pc : Nat), code.length ≤ pc + fuel →
      bits.length = code.length / 8 + 1 + 4 → ClearFrom bits pc → ZeroFrom bits pc →
      ∃ bits', scanLoop code fuel bits pc = .ok bits' ∧
        scanLoopChecked code fuel bits pc = .ok bits' := by
  induction fuel with
  | zero =>
    intro bits pc hf _ _ _
    refine ⟨bits, ?_, ?_⟩
    · simp only [scanLoop]
      rw [if_neg (by omega)]
    · simp only [scanLoopChecked]
      rw [if_neg (by omega)]
  | succ fuel ih =>
    intro bits pc hf hlen hc hz
    by_cases hpc : pc < code.length
    · obtain ⟨b1, next, hb1, hb1c, hnext, hl1, hc1, hz1⟩ := scanStepChecked_spec hpc hlen hc hz
      obtain ⟨b2, hb2, hb2c⟩ := ih b1 next (by omega) (by rw [hl1, hlen]) hc1 hz1
      refine ⟨b2, ?_, ?_⟩
      · simp only [scanLoop, hpc, if_true, hb1, bind, Except.bind, hb2]
      · simp only [scanLoopChecked, hpc, if_true, hb1c, bind, Except.bind, hb2c]
    · refine ⟨bits, ?_, ?_⟩
      · simp only [scanLoop]
        rw [if_neg hpc]
      · simp only [scanLoopChecked]
        rw [if_neg hpc]

theorem zeroFrom_replicate (m pc : Nat) : ZeroFrom (List.replicate m 0) pc := by
  intro j _
  by_cases h : j < m
  · simp [List.getD, List.getElem?_replicate, h]
  · simp [List.getD, List.getElem?_replicate, h]

/-- C13: overwrite-safety invariant of the scan. On every stream, the scan of
`codeBitmap` on its freshly zeroed vector passes every assertion of
`codeBitmapChecked` and returns the very vector `codeBitmap` returns: at the
head of every outer-loop iteration and before every call of `set1`, `setN`,
`set8` and `set16`, all bits at indices `>=` the current cursor are 0, and each
storage byte that `setN`, `set8` or `set16` writes by direct assignment (byte
`pos/8 + 1`, and `pos/8 + 2` for `set16`) holds 0 just before the call. -/
theorem C13_overwrite_safety (code : bitvec) :
    ∃ bits, codeBitmapChecked code = .ok bits ∧ codeBitmap code = .ok bits := by
  obtain ⟨bits, h1, h2⟩ :=
    scanLoopChecked_spec code code.length (List.replicate (code.length / 8 + 1 + 4) 0) 0
      (by omega) (by simp) (clearFrom_replicate _ _) (zeroFrom_replicate _ _)
  exact ⟨bits, h2, h1⟩

/-- Sanity of the assertions of C13: on a vector that is not zeroed the checked
scan stops at the first assertion, while the source scan overwrites silently. -/
theorem scanLoopChecked_rejects_dirty_vector :
    scanLoopChecked [0x67] 1 [0, 0x01, 0, 0, 0] 0 = .error .bitSetAtOrAfterCursor ∧
    set8Checked [0x80, 0x01, 0] 1 = .error .bitSetAtOrAfterCursor ∧
    assertByteZero [0x80, 0x01, 0] 1 = .error .assignedByteNonzero ∧
    set8 [0x80, 0x01, 0] 1 = .ok [0xFF, 0x80, 0] := by
  decide

/-! ## The padding bytes -/

theorem markRun_spec_end (bits : bitvec) (n pc : Nat)
    (hlen : (pc + n) / 8 + 1 < bits.length) (hc : ClearFrom bits pc) :
    ∃ bits', markRun bits n pc = .ok (bits', pc + n) ∧ Marks bits bits' pc (pc + n) := by
  by_cases h8 : n ≥ 8
  · obtain ⟨b1, hb1, hm1⟩ := set16Loop_spec n bits n pc (Nat.le_refl _) (by omega) hc
    have hc1 := hm1.clearFrom hc (by omega)
    obtain ⟨b2, hb2, hm2⟩ := set8Loop_spec (n % 16) b1 (n % 16) (pc + 16 * (n / 16))
      (Nat.le_refl _) (by rw [hm1.1]; omega) hc1
    have hc2 := hm2.clearFrom hc1 (by omega)
    obtain ⟨b3, hb3, hm3⟩ := switchNumbits_spec b2 (n % 16 % 8)
      (pc + 16 * (n / 16) + 8 * (n % 16 / 8)) (by omega)
      (by rw [hm2.1, hm1.1]; omega) hc2
    have e : pc + 16 * (n / 16) + 8 * (n % 16 / 8) + n % 16 % 8 = pc + n := by omega
    rw [e] at hb3 hm3
    refine ⟨b3, ?_, (hm1.trans hm2 (by omega) (by omega)).trans hm3 (by omega) (by omega)⟩
    simp only [markRun, h8, if_true, hb1, bind, Except.bind, hb2, hb3]
  · obtain ⟨b3, hb3, hm3⟩ := switchNumbits_spec bits n pc (by omega) (by omega) hc
    refine ⟨b3, ?_, hm3⟩
    simp only [markRun, h8, if_false, bind, Except.bind, pure, Except.pure, hb3]

theorem scanStep_spec_end {code bits : bitvec} {pc : Nat} (hpc : pc < code.length)
    (hlen : (pc + 1 + refRunLength (code.getD pc 0)) / 8 + 1 < bits.length)
    (hc : ClearFrom bits (pc + 1)) :
    ∃ bits', scanStep code bits pc
        = .ok (bits', pc + 1 + refRunLength (code.getD pc 0)) ∧
      Marks bits bits' (pc + 1) (pc + 1 + refRunLength (code.getD pc 0)) := by
  by_cases hop : code.getD pc 0 < PUSH1 ∨ code.getD pc 0 > PUSH32
  · have hr : refRunLength (code.getD pc 0) = 0 := by
      simp only [PUSH1, PUSH32] at hop
      simp only [refRunLength]
      rw [if_neg (by omega)]
    refine ⟨bits, ?_, ?_⟩
    · simp only [scanStep, readByte_ok hpc, bind, Except.bind, pure, Except.pure, hr]
      rw [if_pos hop]
    · rw [hr]
      exact Marks.refl _ _
  · have hop' : 0x60 ≤ code.getD pc 0 ∧ code.getD pc 0 ≤ 0x7F := by
      simp only [PUSH1, PUSH32] at hop
      omega
    have hr : refRunLength (code.getD pc 0) = code.getD pc 0 - PUSH1 + 1 := by
      simp only [refRunLength, PUSH1]
      rw [if_pos hop']
      omega
    rw [hr] at hlen
    obtain ⟨b1, hb1, hm1⟩ := markRun_spec_end bits (code.getD pc 0 - PUSH1 + 1)
      (pc + 1) hlen hc
    refine ⟨b1, ?_, ?_⟩
    · simp only [scanStep, readByte_ok hpc, bind, Except.bind, hop, if_false, hb1, hr]
    · rw [hr]
      exact hm1

theorem set16_out_of_range {bits : bitvec} {pos : Nat} (h1 : pos / 8 + 1 < bits.length)
    (h2 : bits.length ≤ pos / 8 + 2) : set16 bits pos = .error .outOfRange := by
  have h0 : pos / 8 < bits.length := by omega
  simp only [set16, readByte_ok h0, writeByte_ok _ h0, bind, Except.bind]
  rw [writeByte_ok _ (by simpa using h1)]
  simp only [writeByte, List.length_set]
  rw [if_neg (by omega)]

theorem markRun_push32_out_of_range {bits : bitvec} {pc : Nat}
    (hlen : bits.length = pc / 8 + 4) (hc : ClearFrom bits pc) :
    markRun bits 32 pc = .error .outOfRange := by
  obtain ⟨b1, hb1, hm1⟩ := set16_marks bits pc (by omega) hc
  have hf : set16 b1 (pc + 16) = .error .outOfRange :=
    set16_out_of_range (by rw [hm1.1]; omega) (by rw [hm1.1]; omega)
  simp [markRun, set16Loop, hb1, hf, bind, Except.bind]

theorem scanLoop_short_vector (code : bitvec) (hlast : code[code.length - 1]? = some 0x7F)
    (fuel : Nat) :
    ∀ (bits : bitvec) (pc : Nat), code.length ≤ pc + fuel → pc < code.length →
      bits.length = code.length / 8 + 1 + 3 → ClearFrom bits pc →
      (refClassify 0 (code.drop pc))[code.length - 1 - pc]? = some PosKind.opcode →
      scanLoop code fuel bits pc = .error .outOfRange := by
  induction fuel with
  | zero => intro bits pc hf hpc; omega
  | succ fuel ih =>
    intro bits pc hf hpc hlen hc hread
    have hc1 : ClearFrom bits (pc + 1) := fun i hi => hc i (by omega)
    by_cases hend : pc = code.length - 1
    · have hop : code.getD pc 0 = 0x7F := by
        rw [hend]
        simp [List.getD, hlast]
      have hstep : scanStep code bits pc = .error .outOfRange := by
        simp only [scanStep, readByte_ok hpc, bind, Except.bind, hop, PUSH1, PUSH32]
        rw [if_neg (by omega)]
        exact markRun_push32_out_of_range (by rw [hlen]; omega) hc1
      simp only [scanLoop, hpc, if_true, hstep, bind, Except.bind]
    · rw [refClassify_drop_opcode hpc] at hread
      have e : code.length - 1 - pc = (code.length - 2 - pc) + 1 := by omega
      rw [e, List.getElem?_cons_succ] at hread
      have hn : refRunLength (code.getD pc 0) ≤ code.length - 2 - pc := by
        by_contra hlt
        rw [refClassify_data _ _ _ (by omega) (by simp; omega)] at hread
        cases hread
      rw [refClassify_resume _ _ _ hn, List.drop_drop] at hread
      obtain ⟨b1, hb1, hm1⟩ := @scanStep_spec_end code bits pc hpc (by rw [hlen]; omega) hc1
      have hc2 := hm1.clearFrom hc1 (by omega)
      have e2 : code.length - 2 - pc - refRunLength (code.getD pc 0)
          = code.length - 1 - (pc + 1 + refRunLength (code.getD pc 0)) := by omega
      rw [e2] at hread
      have := ih b1 (pc + 1 + refRunLength (code.getD pc 0)) (by omega) (by omega)
        (by rw [hm1.1, hlen]) hc2 hread
      simp only [scanLoop, hpc, if_true, hb1, bind, Except.bind, this]

/-- C17: the 4 padding bytes are necessary, not just sufficient. For every
stream whose last position holds `0x7F` (PUSH32) and is read as an opcode by the
scan (the reference scan of C1), the scan run on a zeroed vector of
`len(code)/8 + 1 + 3` bytes indexes it out of range, while on the
`len(code)/8 + 1 + 4` bytes of `codeBitmap` it returns: the scan writes storage
index `len(code)/8 + 4`, the last allocated byte. -/
theorem C17_padding_is_necessary (code : bitvec) (hne : 0 < code.length)
    (hlast : code[code.length - 1]? = some 0x7F)
    (hread : (refScan code)[code.length - 1]? = some PosKind.opcode) :
    codeBitmapInternal code (List.replicate (code.length / 8 + 1 + 3) 0)
      = .error .outOfRange ∧
    ∃ bits, codeBitmapInternal code (List.replicate (code.length / 8 + 1 + 4) 0)
      = .ok bits := by
  refine ⟨?_, ?_⟩
  · exact scanLoop_short_vector code hlast code.length _ 0 (by omega) hne (by simp)
      (clearFrom_replicate _ _) (by simpa [refScan] using hread)
  · obtain ⟨bits, hb, _⟩ := codeBitmap_spec code
    exact ⟨bits, hb⟩

/-- C17 at the one-byte stream `[0x7F]`: 4 bytes are indexed out of range, 5
bytes are enough. -/
theorem C17_witness :
    0 < [0x7F].length ∧ [0x7F][[0x7F].length - 1]? = some 0x7F ∧
    (refScan [0x7F])[[0x7F].length - 1]? = some PosKind.opcode ∧
    codeBitmapInternal [0x7F] (List.replicate ([0x7F].length / 8 + 1 + 3) 0)
      = .error .outOfRange ∧
    ∃ bits, codeBitmapInternal [0x7F] (List.replicate ([0x7F].length / 8 + 1 + 4) 0)
      = .ok bits :=
  ⟨by decide, by decide, by decide,
    C17_padding_is_necessary [0x7F] (by decide) (by decide) (by decide)⟩

/-! ## The statistics loop of `main` -/

theorem getElem?_eq_some_getD {s : bitvec} {i : Nat} (h : i < s.length) :
    s[i]? = some (s.getD i 0) := by
  simp [List.getD, List.getElem?_eq_getElem h]

theorem statsStep_other {code bitmap : bitvec} {pc : Nat} (c : Counters)
    (hpc : pc < code.length) (hbm : pc / 8 < bitmap.length)
    (hop : code.getD pc 0 ≠ PUSH1) : statsStep code bitmap pc c = .ok c := by
  simp only [statsStep, codeSegment_ok hbm, readByte_ok hpc, bind, Except.bind, pure,
    Except.pure]
  rw [if_neg hop]

theorem statsStep_push1 {code bitmap : bitvec} {pc : Nat} (c : Counters)
    (hpc : pc + 1 < code.length) (hbm : pc / 8 < bitmap.length)
    (hop : code.getD pc 0 = PUSH1) :
    statsStep code bitmap pc c
      = .ok (if code.getD (pc + 1) 0 = 0x00 then
          { push0Count := c.push0Count + 1
            deployCost1 := c.deployCost1 + 2 * 200
            deployCost2 := c.deployCost2 + 200
            runTimeCost1 := c.runTimeCost1 + 3
            runTimeCost2 := c.runTimeCost2 + 2 }
        else c) := by
  have hpc0 : pc < code.length := by omega
  simp only [statsStep, codeSegment_ok hbm, readByte_ok hpc0, readByte_ok hpc, bind,
    Except.bind, pure, Except.pure]
  rw [if_pos hop]
  split <;> rfl

theorem statsStep_push1_at_end {code bitmap : bitvec} {pc : Nat} (c : Counters)
    (hpc : pc < code.length) (hend : code.length ≤ pc + 1) (hbm : pc / 8 < bitmap.length)
    (hop : code.getD pc 0 = PUSH1) :
    statsStep code bitmap pc c = .error .outOfRange := by
  simp only [statsStep, codeSegment_ok hbm, readByte_ok hpc, bind, Except.bind, pure,
    Except.pure]
  rw [if_pos hop]
  simp [readByte, List.getElem?_eq_none hend]

theorem push0Pairs_of_le {code : bitvec} {pc : Nat} (h : code.length ≤ pc) :
    push0Pairs code pc = 0 := by
  have : code.length - pc = 0 := by omega
  simp [push0Pairs, this]

theorem push0Pairs_step {code : bitvec} {pc : Nat} (hpc : pc < code.length) :
    push0Pairs code pc
      = (if code[pc]? = some 0x60 ∧ code[pc + 1]? = some 0x00 then 1 else 0)
        + push0Pairs code (pc + 1) := by
  have e : code.length - pc = (code.length - (pc + 1)) + 1 := by omega
  unfold push0Pairs
  rw [e, List.range'_succ, List.filter_cons]
  by_cases h : code[pc]? = some 0x60 ∧ code[pc + 1]? = some 0x00
  · simp [h]
    omega
  · rw [if_neg h]
    have : (decide (code[pc]? = some 0x60) && decide (code[pc + 1]? = some 0x00)) = false := by
      simpa using h
    simp [this]

theorem statsLoop_spec (code bitmap : bitvec)
    (hbm : bitmap.length = code.length / 8 + 1 + 4) (fuel : Nat) :
    ∀ (pc : Nat) (c : Counters), code.length ≤ pc + fuel →
      (∀ p, pc ≤ p → p < code.length → code.getD p 0 = PUSH1 → p + 1 < code.length) →
      ∃ c', statsLoop code bitmap fuel pc c = .ok c' ∧
        c'.push0Count = c.push0Count + push0Pairs code pc ∧
        c'.deployCost1 = c.deployCost1 + 400 * push0Pairs code pc ∧
        c'.deployCost2 = c.deployCost2 + 200 * push0Pairs code pc ∧
        c'.runTimeCost1 = c.runTimeCost1 + 3 * push0Pairs code pc ∧
        c'.runTimeCost2 = c.runTimeCost2 + 2 * push0Pairs code pc := by
  induction fuel with
  | zero =>
    intro pc c hf _
    refine ⟨c, ?_, ?_⟩
    · simp only [statsLoop]
      rw [if_neg (by omega)]
    · rw [push0Pairs_of_le (by omega)]
      simp
  | succ fuel ih =>
    intro pc c hf hguard
    by_cases hpc : pc < code.length
    · have hb : pc / 8 < bitmap.length := by rw [hbm]; omega
      have h0 : code[pc]? = some (code.getD pc 0) := getElem?_eq_some_getD hpc
      by_cases hop : code.getD pc 0 = PUSH1
      · have hpc1 : pc + 1 < code.length := hguard pc (Nat.le_refl _) hpc hop
        have h1 : code[pc + 1]? = some (code.getD (pc + 1) 0) := getElem?_eq_some_getD hpc1
        have hop' : code.getD pc 0 = 0x60 := hop
        by_cases hnext : code.getD (pc + 1) 0 = 0x00
        · obtain ⟨c', hc', hr⟩ := ih (pc + 1)
            { push0Count := c.push0Count + 1
              deployCost1 := c.deployCost1 + 2 * 200
              deployCost2 := c.deployCost2 + 200
              runTimeCost1 := c.runTimeCost1 + 3
              runTimeCost2 := c.runTimeCost2 + 2 } (by omega)
            (fun p hp => hguard p (by omega))
          refine ⟨c', ?_, ?_⟩
          · simp only [statsLoop, hpc, if_true, statsStep_push1 c hpc1 hb hop, hnext, bind,
              Except.bind]
            exact hc'
          · rw [push0Pairs_step hpc, h0, h1, hop', hnext]
            simp only [and_self, if_true] at hr ⊢
            omega
        · obtain ⟨c', hc', hr⟩ := ih (pc + 1) c (by omega) (fun p hp => hguard p (by omega))
          refine ⟨c', ?_, ?_⟩
          · simp only [statsLoop, hpc, if_true, statsStep_push1 c hpc1 hb hop, hnext, bind,
              Except.bind, if_false]
            exact hc'
          · rw [push0Pairs_step hpc, h0, h1, hop']
            have : ¬ (some 0x60 = some 0x60 ∧ some (code.getD (pc + 1) 0) = some 0x00) := by
              simpa using hnext
            rw [if_neg this]
            simpa using hr
      · obtain ⟨c', hc', hr⟩ := ih (pc + 1) c (by omega) (fun p hp => hguard p (by omega))
        refine ⟨c', ?_, ?_⟩
        · simp only [statsLoop, hpc, if_true, statsStep_other c hpc hb hop, bind, Except.bind]
          exact hc'
        · rw [push0Pairs_step hpc, h0]
          have : ¬ (some (code.getD pc 0) = some 0x60 ∧ code[pc + 1]? = some 0x00) := by
            intro h
            exact hop (by simpa [PUSH1] using h.1)
          rw [if_neg this]
          simpa using hr
    · refine ⟨c, ?_, ?_⟩
      · simp only [statsLoop]
        rw [if_neg hpc]
      · rw [push0Pairs_of_le (by omega)]
        simp

theorem statsLoop_out_of_range (code bitmap : bitvec)
    (hbm : bitmap.length = code.length / 8 + 1 + 4)
    (hlast : code[code.length - 1]? = some 0x60) (fuel : Nat) :
    ∀ (pc : Nat) (c : Counters), code.length ≤ pc + fuel → pc < code.length →
      statsLoop code bitmap fuel pc c = .error .outOfRange := by
  induction fuel with
  | zero => intro pc c hf hpc; omega
  | succ fuel ih =>
    intro pc c hf hpc
    have hb : pc / 8 < bitmap.length := by rw [hbm]; omega
    by_cases hend : pc + 1 < code.length
    · have hstep : ∃ c1, statsStep code bitmap pc c = .ok c1 := by
        by_cases hop : code.getD pc 0 = PUSH1
        · exact ⟨_, statsStep_push1 c hend hb hop⟩
        · exact ⟨_, statsStep_other c hpc hb hop⟩
      obtain ⟨c1, hc1⟩ := hstep
      simp only [statsLoop, hpc, if_true, hc1, bind, Except.bind]
      exact ih (pc + 1) c1 (by omega) hend
    · have hpce : pc = code.length - 1 := by omega
      have hop : code.getD pc 0 = PUSH1 := by
        rw [hpce]
        simp [List.getD, hlast, PUSH1]
      simp only [statsLoop, hpc, if_true,
        statsStep_push1_at_end c hpc (by omega) hb hop, bind, Except.bind]

theorem mainStats_out_of_range (code : bitvec) (hlast : code[code.length - 1]? = some 0x60) :
    mainStats code = .error .outOfRange := by
  obtain ⟨bitmap, hb, hl, _⟩ := codeBitmap_spec code
  have hne : 0 < code.length := by
    by_contra h0
    rw [List.getElem?_eq_none (by omega)] at hlast
    cases hlast
  simp only [mainStats, hb, bind, Except.bind]
  exact statsLoop_out_of_range code bitmap hl hlast code.length 0 _ (by omega) hne

theorem mainStats_spec (code : bitvec) (hlast : code[code.length - 1]? ≠ some 0x60) :
    ∃ c, mainStats code = .ok c ∧
      c.push0Count = push0Pairs code 0 ∧
      c.deployCost1 = 400 * push0Pairs code 0 ∧
      c.deployCost2 = 200 * push0Pairs code 0 ∧
      c.runTimeCost1 = 3 * push0Pairs code 0 ∧
      c.runTimeCost2 = 2 * push0Pairs code 0 := by
  obtain ⟨bitmap, hb, hl, _⟩ := codeBitmap_spec code
  obtain ⟨c, hc, hr⟩ := statsLoop_spec code bitmap hl code.length 0
    { push0Count := 0, deployCost1 := 0, deployCost2 := 0,
      runTimeCost1 := 0, runTimeCost2 := 0 } (by omega)
    (fun p _ hp hop => by
      by_contra hge
      have hpe : p = code.length - 1 := by omega
      apply hlast
      rw [← hpe, getElem?_eq_some_getD hp, hop]
      rfl)
  refine ⟨c, ?_, ?_⟩
  · simp only [mainStats, hb, bind, Except.bind]
    exact hc
  · simpa using hr

/-- C18 fails on the code at the stream `[0x61, 0x60, 0x00]` (PUSH2 followed by
its two data bytes): the statistics loop completes with `push0Count = 1`,
although position 1 is classified as data and no code position holds `0x60`
followed by `0x00`. The test `code[pc] == PUSH1` of the loop is not guarded by
the classification `cs`. -/
theorem C18_counts_pair_inside_data_run :
    ∃ bitmap c, codeBitmap [0x61, 0x60, 0x00] = .ok bitmap ∧
      mainStats [0x61, 0x60, 0x00] = .ok c ∧
      codeSegment bitmap 1 = .ok false ∧
      push0AtCodePositions [0x61, 0x60, 0x00] bitmap = 0 ∧
      c.push0Count = 1 :=
  ⟨[0x60, 0, 0, 0, 0], ⟨1, 400, 200, 3, 2⟩, by decide, by decide, by decide, by decide,
    by decide⟩

/-- C19 fails on the code at the one-byte stream `[0x60]`: the loop reads
`code[pc+1]` with `pc + 1 = len(code)`, an index out of range. -/
theorem C19_stats_loop_reads_past_end :
    mainStats [0x60] = .error .outOfRange := by
  decide

/-- C20: for every stream on which the statistics loop of `main` completes,
the counters are fixed multiples of the occurrence count:
`deployCost1 = 400 * push0Count`, `deployCost2 = 200 * push0Count`,
`runTimeCost1 = 3 * push0Count`, `runTimeCost2 = 2 * push0Count`, hence
`deployCost1 - deployCost2 = 200 * push0Count` and
`runTimeCost1 - runTimeCost2 = push0Count`. The loop completes on every stream
whose last byte is not `0x60`. -/
theorem C20_counters_are_multiples (code : bitvec) :
    (∀ c, mainStats code = .ok c →
      c.deployCost1 = 400 * c.push0Count ∧ c.deployCost2 = 200 * c.push0Count ∧
      c.runTimeCost1 = 3 * c.push0Count ∧ c.runTimeCost2 = 2 * c.push0Count ∧
      c.deployCost1 - c.deployCost2 = 200 * c.push0Count ∧
      c.runTimeCost1 - c.runTimeCost2 = c.push0Count) ∧
    (code[code.length - 1]? ≠ some 0x60 → ∃ c, mainStats code = .ok c) := by
  refine ⟨fun c h => ?_, fun hlast => ?_⟩
  · by_cases hlast : code[code.length - 1]? = some 0x60
    · rw [mainStats_out_of_range code hlast] at h
      cases h
    · obtain ⟨c', hc', h1, h2, h3, h4, h5⟩ := mainStats_spec code hlast
      rw [hc'] at h
      cases h
      omega
  · obtain ⟨c, hc, _⟩ := mainStats_spec code hlast
    exact ⟨c, hc⟩

/-- C20 at the stream `[0x60, 0x00, 0x60, 0x00, 0x01]`, on which the loop
completes with two occurrences. -/
theorem C20_witness :
    mainStats [0x60, 0x00, 0x60, 0x00, 0x01] = .ok ⟨2, 800, 400, 6, 4⟩ ∧
    (800 = 400 * 2 ∧ 400 = 200 * 2 ∧ 6 = 3 * 2 ∧ 4 = 2 * 2 ∧
      800 - 400 = 200 * 2 ∧ 6 - 4 = 2) :=
  ⟨by decide,
    (C20_counters_are_multiples [0x60, 0x00, 0x60, 0x00, 0x01]).1 ⟨2, 800, 400, 6, 4⟩
      (by decide)⟩

end Push0
